import Mathlib

/-!
# Shallow embedding of the A1JS spreadsheet-table library

This file embeds the A1JS source (reference codec, value coercion, CSV
tokenizer/writer, and the sparse `A1` table class) as Lean definitions and
proves the specified properties about them.

Modelling conventions:
* JavaScript strings are lists of characters (`JsStr`).
* JavaScript numbers appearing as row/column coordinates are `Int`
  (they are used as integers throughout the source); cell values of
  numeric type are exact rationals (`ℚ`).
* Thrown exceptions are `Except`/`Option` results; mutating methods of the
  `A1` class return the table state at exit together with an optional error,
  so that partial mutation before a throw stays observable.
* JavaScript objects (`Record<string, unknown>`) are insertion-ordered
  association lists with unique keys (`objSet`/`objDelete`/`objLookup`
  mirror property assignment, `delete`, and property access).
-/

namespace A1JS

/-- JavaScript strings, modelled as lists of characters. -/
abbrev JsStr := List Char

/-- The two error conditions raised by the library: a string that does not
match the cell-reference grammar (`format`, "Invalid cell reference"), and a
row/column out of range (`range`, "Invalid row number" / "Row and column
numbers must be >= 1"). -/
inductive JsError where
  | format
  | range
deriving DecidableEq, Repr

/-- A decoded cell position, `interface CellPosition { row; column }`. -/
structure CellPosition where
  row : Int
  column : Int
deriving DecidableEq, Repr

/-- The character class `[A-Z]` of the cell-reference regex. -/
def isUpperAZ (c : Char) : Bool := decide (65 ≤ c.toNat) && decide (c.toNat ≤ 90)

/-- The character class `\d` (`[0-9]`). -/
def isDigitCh (c : Char) : Bool := decide (48 ≤ c.toNat) && decide (c.toNat ≤ 57)

/-- `columnLetterToNumber(letter)`: fold `result = result * 26 +
(charCode - "A".charCode + 1)` over the characters.  Character codes are
arbitrary, so the result is an integer (it is negative for some non-letter
inputs, as in the source where it is only a plain arithmetic loop). -/
def columnLetterToNumber (letter : JsStr) : Int :=
  letter.foldl (fun result c => result * 26 + ((c.toNat : Int) - 64)) 0

/-- Fuel-driven body of the `columnNumberToLetter` loop; `fuel = num` always
suffices because the loop variable strictly decreases (see
`columnNumberToLetter_eq` for the loop-shaped unfolding). -/
def columnNumberToLetterAux (fuel num : Nat) : JsStr :=
  match fuel with
  | 0 => []
  | fuel + 1 =>
    if num = 0 then []
    else columnNumberToLetterAux fuel ((num - 1) / 26) ++ [Char.ofNat (65 + (num - 1) % 26)]

/-- `columnNumberToLetter(num)`: the bijective base-26 rendering
(`while (num > 0) { num--; prepend letter(num % 26); num = num / 26 | floor }`).
Non-positive input gives the empty string, as in the source loop. -/
def columnNumberToLetter (num : Nat) : JsStr :=
  columnNumberToLetterAux num num

/-- Fuel-driven body of the digit-accumulation loop behind `String(n)`. -/
def natToDigitsFuel (fuel n : Nat) : JsStr :=
  match fuel with
  | 0 => []
  | fuel + 1 =>
    if n = 0 then []
    else natToDigitsFuel fuel (n / 10) ++ [Char.ofNat (48 + n % 10)]

/-- Decimal digits of a positive natural (empty for `0`); the recursion that
underlies JavaScript's `String(n)` for a non-negative integer. -/
def natToDigitsAux (n : Nat) : JsStr :=
  natToDigitsFuel n n

/-- JavaScript `String(n)` for a non-negative integer `n`. -/
def natToDigits (n : Nat) : JsStr :=
  if n = 0 then ['0'] else natToDigitsAux n

/-- `parseInt(s, 10)` restricted to all-digit strings (the only shape the
source feeds it, thanks to the `\d+` capture group). -/
def digitsToNat (s : JsStr) : Nat :=
  s.foldl (fun acc c => acc * 10 + (c.toNat - 48)) 0

/-- The anchored regex match `^([A-Z]+)(\d+)$`: the greedy `[A-Z]+` group is
the maximal uppercase prefix (giving letters back to `\d` can never help,
since an uppercase letter is not a digit), and the rest must be one or more
digits. -/
def matchCellRef (s : JsStr) : Option (JsStr × JsStr) :=
  let letters := s.takeWhile isUpperAZ
  let rest := s.dropWhile isUpperAZ
  if letters ≠ [] ∧ rest ≠ [] ∧ rest.all isDigitCh then some (letters, rest) else none

/-- `parseCellReference(cellRef)`: regex match, then
`columnLetterToNumber` / `parseInt`, then the `row < 1` range check. -/
def parseCellReference (cellRef : JsStr) : Except JsError CellPosition :=
  match matchCellRef cellRef with
  | none => .error .format
  | some (columnStr, rowStr) =>
    let column := columnLetterToNumber columnStr
    let row : Int := (digitsToNat rowStr : Int)
    if row < 1 then .error .range else .ok ⟨row, column⟩

/-- `positionToCellReference(position)`: range check then
`` `${columnNumberToLetter(column)}${row}` ``. -/
def positionToCellReference (position : CellPosition) : Except JsError JsStr :=
  if position.row < 1 ∨ position.column < 1 then .error .range
  else .ok (columnNumberToLetter position.column.toNat ++ natToDigits position.row.toNat)

/-- `isValidCellReference(cellRef)`: `parseCellReference` succeeds. -/
def isValidCellReference (cellRef : JsStr) : Bool :=
  (parseCellReference cellRef).toOption.isSome

/-- The reference string produced by the happy path of
`positionToCellReference` for row `r`, column `c`. -/
def canonRef (r c : Int) : JsStr :=
  columnNumberToLetter c.toNat ++ natToDigits r.toNat

/-- The cell-reference grammar `^[A-Z]+\d+$` as an explicit decomposition. -/
def refGrammar (s : JsStr) : Prop :=
  ∃ L D, s = L ++ D ∧ L ≠ [] ∧ (∀ c ∈ L, isUpperAZ c = true) ∧
    D ≠ [] ∧ (∀ c ∈ D, isDigitCh c = true)

/-- The canonical-row-digits condition: the regex row group (when the grammar
matches) does not start with the digit `0`. -/
def noLeadingZeroRow (s : JsStr) : Bool :=
  match matchCellRef s with
  | none => true
  | some (_, rowStr) => !(rowStr.head? == some '0')

/-! ## Cell values and value coercion -/

/-- The JavaScript values that occur as cell contents (`unknown` in the
source): `null`, `undefined`, booleans, numbers (modelled as exact
rationals), strings, and plain objects. -/
inductive Value where
  | null
  | undef
  | bool (b : Bool)
  | num (q : ℚ)
  | str (s : JsStr)
  | obj (fields : List (JsStr × Value))

/-- Digits of the fractional part `r/d` by decimal long division
(`fuel = d` suffices whenever the expansion terminates, i.e. `d ∣ 10 ^ d`). -/
def fracDigits (fuel r d : Nat) : JsStr :=
  match fuel with
  | 0 => []
  | fuel + 1 =>
    if r = 0 then []
    else Char.ofNat (48 + (r * 10) / d) :: fracDigits fuel ((r * 10) % d) d

/-- JavaScript `String(x)` for the non-negative number `n / d`: integer part
in decimal, then a dot and the fractional digits when the fraction is
nonzero. -/
def renderPos (n d : Nat) : JsStr :=
  natToDigits (n / d) ++ (if n % d = 0 then [] else '.' :: fracDigits d (n % d) d)

/-- JavaScript `String(x)` for a number `q` (with terminating decimal
expansion): optional minus sign, then the positive rendering. -/
def renderNum (q : ℚ) : JsStr :=
  if q < 0 then '-' :: renderPos (-q).num.toNat (-q).den
  else renderPos q.num.toNat q.den

/-- JavaScript `String(value)` as used by `escapeCsvValue`. -/
def jsString : Value → JsStr
  | .null => "null".toList
  | .undef => "undefined".toList
  | .bool true => "true".toList
  | .bool false => "false".toList
  | .num q => renderNum q
  | .str s => s
  | .obj _ => "[object Object]".toList

/-- The quoting trigger of `escapeCsvValue`: the rendered text contains a
comma (the hard-coded separator character), a quote, `\n`, or `\r`. -/
def hasCsvSpecial (s : JsStr) : Bool :=
  s.any fun c => c == ',' || c == '"' || c == '\n' || c == '\r'

/-- `str.replace(/"/g, String.fromCharCode(34, 34))`: double every quote. -/
def doubleQuotes (s : JsStr) : JsStr :=
  s.flatMap fun c => if c = '"' then ['"', '"'] else [c]

/-- `escapeCsvValue(value)`: empty for null/undefined; otherwise the
rendered text, quote-wrapped with doubled quotes when it contains a comma,
quote, `\n` or `\r`. -/
def escapeCsvValue (value : Value) : JsStr :=
  match value with
  | .null => []
  | .undef => []
  | v =>
    let s := jsString v
    if hasCsvSpecial s then '"' :: (doubleQuotes s ++ ['"']) else s

/-- ASCII `toLowerCase` on one character, as applied by `parseValue`. -/
def toLowerCh (c : Char) : Char :=
  if 65 ≤ c.toNat ∧ c.toNat ≤ 90 then Char.ofNat (c.toNat + 32) else c

/-- The body of the numeric grammar `\d+\.?\d*` (after the optional sign):
one or more digits, then an optional dot followed by optional digits. -/
def numGrammarBody (s : JsStr) : Bool :=
  let intPart := s.takeWhile isDigitCh
  let rest := s.dropWhile isDigitCh
  !intPart.isEmpty &&
    (rest.isEmpty || (rest.head? == some '.' && rest.tail.all isDigitCh))

/-- The regex test `/^-?\d+\.?\d*$/` of `parseValue`. -/
def numGrammar (s : JsStr) : Bool :=
  numGrammarBody (if s.head? = some '-' then s.tail else s)

/-- `Number(s)` on strings matching the numeric grammar (after the optional
sign): integer digits plus fractional digits scaled by a power of ten. -/
def parseDecimalBody (s : JsStr) : ℚ :=
  let intPart := s.takeWhile isDigitCh
  let frac := (s.dropWhile isDigitCh).tail
  (digitsToNat intPart : ℚ) + (digitsToNat frac : ℚ) / (10 : ℚ) ^ frac.length

/-- `Number(s)` on strings matching the numeric grammar. -/
def parseDecimal (s : JsStr) : ℚ :=
  if s.head? = some '-' then -(parseDecimalBody s.tail) else parseDecimalBody s

/-- `parseValue(value)`: empty string to null; numeric-grammar strings to
numbers (in the exact-rational model `Number` is never `NaN` on a grammar
match, so the `isNaN` guard of the source never fires); case-insensitive
`true`/`false` to booleans; anything else stays a string. -/
def parseValue (value : JsStr) : Value :=
  if value = [] then .null
  else if numGrammar value then .num (parseDecimal value)
  else
    let lower := value.map toLowerCh
    if lower = "true".toList then .bool true
    else if lower = "false".toList then .bool false
    else .str value

/-! ## JavaScript objects, the CSV tokenizer, and the `A1` table class -/

/-- A JavaScript object used as a table: an insertion-ordered association
list with unique keys. -/
abbrev Table := List (JsStr × Value)

/-- Property access `t[k]`. -/
def objLookup : Table → JsStr → Option Value
  | [], _ => none
  | (k', v') :: rest, k => if k' = k then some v' else objLookup rest k

/-- Property assignment `t[k] = v`: overwrite in place when the key exists,
append otherwise (JavaScript objects keep first-insertion order). -/
def objSet : Table → JsStr → Value → Table
  | [], k, v => [(k, v)]
  | (k', v') :: rest, k, v =>
    if k' = k then (k', v) :: rest else (k', v') :: objSet rest k v

/-- `delete t[k]`. -/
def objDelete : Table → JsStr → Table
  | [], _ => []
  | (k', v') :: rest, k => if k' = k then rest else (k', v') :: objDelete rest k

/-- `Object.keys(t)`. -/
def keysOf (t : Table) : List JsStr := t.map Prod.fst

/-- Evaluation of an object literal / object spread from a key-value list:
later duplicates overwrite in place. -/
def mkObj (entries : List (JsStr × Value)) : Table :=
  entries.foldl (fun acc kv => objSet acc kv.1 kv.2) []

/-- JavaScript whitespace as removed by `String.trim` (the ASCII portion;
the inputs of this development contain no exotic Unicode spaces). -/
def isJsWs (c : Char) : Bool :=
  c == ' ' || c == '\t' || c == '\n' || c == '\r' || c == '\x0B' || c == '\x0C'

/-- `s.trim()`. -/
def trimJs (s : JsStr) : JsStr :=
  ((s.dropWhile isJsWs).reverse.dropWhile isJsWs).reverse

/-- `s.split(/\r?\n/)`: cut at every `\r\n` or lone `\n`; a `\r` not
followed by `\n` is an ordinary character. -/
def splitLinesCRLF : JsStr → List JsStr
  | [] => [[]]
  | '\r' :: '\n' :: rest => [] :: splitLinesCRLF rest
  | '\n' :: rest => [] :: splitLinesCRLF rest
  | c :: rest =>
    match splitLinesCRLF rest with
    | [] => [[c]]
    | l :: ls => (c :: l) :: ls

/-- The character loop of `parseCsvLine`: state `(inQuotes, current)`,
quote handling first (escaped quote inside quotes, otherwise toggle), then
the separator test outside quotes, otherwise append the character. -/
def parseCsvLineAux (separator : Char) : JsStr → Bool → JsStr → List JsStr
  | [], _, current => [current]
  | '"' :: '"' :: rest2, true, current =>
    parseCsvLineAux separator rest2 true (current ++ ['"'])
  | '"' :: rest, true, current => parseCsvLineAux separator rest false current
  | '"' :: rest, false, current => parseCsvLineAux separator rest true current
  | c :: rest, inQuotes, current =>
    if c = separator ∧ inQuotes = false then
      current :: parseCsvLineAux separator rest inQuotes []
    else parseCsvLineAux separator rest inQuotes (current ++ [c])

/-- `parseCsvLine(line, separator)`. -/
def parseCsvLine (line : JsStr) (separator : Char) : List JsStr :=
  parseCsvLineAux separator line false []

/-- `parseCsvString(csvString, separator)`: zero rows for blank input;
otherwise split into lines, skip blank lines, tokenize each line. -/
def parseCsvString (csvString : JsStr) (separator : Char) : List (List JsStr) :=
  if trimJs csvString = [] then []
  else
    ((splitLinesCRLF csvString).filter fun l => !(trimJs l).isEmpty).map
      fun l => parseCsvLine l separator

namespace A1

/-- The loop of `validateCellReferences`: the thrown error, if any. -/
def validateCellReferences (t : Table) : Option JsError :=
  if (keysOf t).all isValidCellReference then none else some .format

/-- `initialData.data ? {...initialData.data} : {}` — spreading the `data`
property: an object spreads to its own entries; a truthy string spreads to
indexed single-character entries; every other primitive (truthy or falsy)
spreads to no own enumerable properties. -/
def spreadData : Option Value → Table
  | some (.obj fields) => mkObj fields
  | some (.str s) =>
    if s = [] then []
    else mkObj ((List.range s.length).zip s |>.map fun ic =>
      (natToDigits ic.1, Value.str [ic.2]))
  | _ => []

/-- The `A1` constructor: options form when the argument has a `"data"` key,
flat-mapping form otherwise; then validation of every key. -/
def construct (initialData : Option (List (JsStr × Value))) : Except JsError Table :=
  let d : Table :=
    match initialData with
    | none => []
    | some entries =>
      if ("data".toList) ∈ keysOf entries then
        spreadData (objLookup entries ("data".toList))
      else mkObj entries
  match validateCellReferences d with
  | some e => .error e
  | none => .ok d

/-- `set(cellData)`: validate every key first, then `Object.assign`. -/
def set (t : Table) (cellData : List (JsStr × Value)) : Table × Option JsError :=
  if (keysOf cellData).all isValidCellReference then
    (cellData.foldl (fun acc kv => objSet acc kv.1 kv.2) t, none)
  else (t, some .format)

/-- `setItem(cellRef, value)`. -/
def setItem (t : Table) (cellRef : JsStr) (value : Value) : Table × Option JsError :=
  if isValidCellReference cellRef then (objSet t cellRef value, none)
  else (t, some .format)

/-- `getItem(cellRef)`: validated read; absent keys give `undefined`
(`none`). -/
def getItem (t : Table) (cellRef : JsStr) : Except JsError (Option Value) :=
  if isValidCellReference cellRef then .ok (objLookup t cellRef)
  else .error .format

/-- `removeItem(cellRef)`. -/
def removeItem (t : Table) (cellRef : JsStr) : Table × Option JsError :=
  if isValidCellReference cellRef then (objDelete t cellRef, none)
  else (t, some .format)

/-- `clear()`. -/
def clear (_t : Table) : Table := []

/-- `size()`. -/
def size (t : Table) : Nat := (keysOf t).length

/-- `isEmpty()`. -/
def isEmpty (t : Table) : Bool := size t == 0

/-- `getCellReferences()`. -/
def getCellReferences (t : Table) : List JsStr := keysOf t

/-- The bounding box of `getBoundingBox`. -/
structure BBox where
  minRow : Int
  maxRow : Int
  minCol : Int
  maxCol : Int
deriving DecidableEq, Repr

/-- `Math.min(...)` over a list (the list is nonempty at every use site). -/
def listMinI : List Int → Int
  | [] => 0
  | x :: xs => xs.foldl min x

/-- `Math.max(...)` over a list (the list is nonempty at every use site). -/
def listMaxI : List Int → Int
  | [] => 0
  | x :: xs => xs.foldl max x

/-- `getBoundingBox()`: none when empty, else min/max of the decoded
positions of all keys.  (On tables reachable through the public API every
key decodes successfully — the key-validity invariant — so the `filterMap`
drops nothing.) -/
def getBoundingBox (t : Table) : Option BBox :=
  if keysOf t = [] then none
  else
    let positions := (keysOf t).filterMap fun ref => (parseCellReference ref).toOption
    some ⟨listMinI (positions.map fun p => p.row),
          listMaxI (positions.map fun p => p.row),
          listMinI (positions.map fun p => p.column),
          listMaxI (positions.map fun p => p.column)⟩

/-- CSV export options (§6: the separator option is a single character). -/
structure CSVOptions where
  separator : Char
  includeHeaders : Bool
  lineEnding : JsStr
  startFromColumnA : Bool

/-- The export defaults `{separator: ",", includeHeaders: false,
lineEnding: newline, startFromColumnA: true}`. -/
def defaultCSVOptions : CSVOptions := ⟨',', false, ['\n'], true⟩

/-- CSV import options. -/
structure CSVImportOptions where
  separator : Char
  hasHeaders : Bool
  startRow : Int
  startColumn : JsStr

/-- The import defaults `{separator: ",", hasHeaders: false, startRow: 1,
startColumn: "A"}`. -/
def defaultImportOptions : CSVImportOptions := ⟨',', false, 1, ['A']⟩

/-- `for (x = lo; x <= hi; x++)` as a list of loop indices. -/
def intRange (lo hi : Int) : List Int :=
  (List.range (hi - lo + 1).toNat).map fun i : Nat => lo + (i : Int)

/-- One data row of `toCSVString`: the escaped cell texts of the column
range joined with the separator (`this.data[cellRef]` is `undefined` for
absent cells, which escapes to the empty field). -/
def csvLine (t : Table) (sep : Char) (startCol maxCol row : Int) : JsStr :=
  List.intercalate [sep] ((intRange startCol maxCol).map fun col =>
    escapeCsvValue ((objLookup t (canonRef row col)).getD .undef))

/-- `toCSVString(options)`: empty for an empty table; otherwise the
optional header line (column letters) followed by one line per row of the
bounding box, joined with the line ending. -/
def toCSVString (t : Table) (options : CSVOptions) : JsStr :=
  match getBoundingBox t with
  | none => []
  | some bounds =>
    let startCol := if options.startFromColumnA then 1 else bounds.minCol
    let headers : List JsStr :=
      if options.includeHeaders then
        [List.intercalate [options.separator]
          ((intRange startCol bounds.maxCol).map fun col =>
            columnNumberToLetter col.toNat)]
      else []
    let rows := (intRange bounds.minRow bounds.maxRow).map
      (csvLine t options.separator startCol bounds.maxCol)
    List.intercalate options.lineEnding (headers ++ rows)

/-- `parsedValue !== null`, negated. -/
def isNullValue : Value → Bool
  | .null => true
  | _ => false

/-- The inner column loop of `loadFromCSVString`: encode the destination
reference (propagating its range error, with the cells already written kept,
as a thrown exception leaves them), coerce the field, store non-null
values. -/
def loadRow (t : Table) (row : Int) (col : Int) : List JsStr → Table × Option JsError
  | [] => (t, none)
  | field :: rest =>
    match positionToCellReference ⟨row, col⟩ with
    | .error e => (t, some e)
    | .ok cellRef =>
      let parsedValue := parseValue field
      let t' := if isNullValue parsedValue then t else objSet t cellRef parsedValue
      loadRow t' row (col + 1) rest

/-- The outer row loop of `loadFromCSVString`. -/
def loadRows (t : Table) (row startColNum : Int) : List (List JsStr) → Table × Option JsError
  | [] => (t, none)
  | r :: rest =>
    match loadRow t row startColNum r with
    | (t', none) => loadRows t' (row + 1) startColNum rest
    | (t', some e) => (t', some e)

/-- `loadFromCSVString(csvString, options)`: tokenize; return untouched on
zero rows; otherwise clear and fill from the parsed rows (optionally
dropping a header row) at the configured origin. -/
def loadFromCSVString (t : Table) (csvString : JsStr) (options : CSVImportOptions) :
    Table × Option JsError :=
  let rows := parseCsvString csvString options.separator
  if rows = [] then (t, none)
  else
    let startColNum := columnLetterToNumber options.startColumn
    let dataRows := if options.hasHeaders then rows.drop 1 else rows
    loadRows (clear t) options.startRow startColNum dataRows

end A1

/-! ## Object-level lemmas -/

instance : Inhabited Value := ⟨Value.null⟩

/-! ## C6: value coercion -/

/-- Modelled from the spec: the claimed coercion grammar
`-?digits(.digits)?`, in which a fractional part, when present, carries at
least one digit (the code grammar `-?\d+\.?\d*` also accepts a bare
trailing dot). -/
def specNumGrammarBody (s : JsStr) : Bool :=
  let intPart := s.takeWhile isDigitCh
  let rest := s.dropWhile isDigitCh
  !intPart.isEmpty &&
    (rest.isEmpty ||
      (rest.head? == some '.' && !rest.tail.isEmpty && rest.tail.all isDigitCh))

/-- Modelled from the spec: the full claimed grammar with optional sign. -/
def specNumGrammar (s : JsStr) : Bool :=
  specNumGrammarBody (if s.head? = some '-' then s.tail else s)

/-! ## C10: constructor dispatch on a `data` key -/

/-- JavaScript truthiness of a cell value. -/
def truthyValue : Value → Bool
  | .null => false
  | .undef => false
  | .bool b => b
  | .num q => decide (q ≠ 0)
  | .str s => !s.isEmpty
  | .obj _ => true

/-! ## C8: the key-validity invariant -/

/-- Every key stored in the table is a valid cell reference. -/
def tableValid (t : Table) : Prop :=
  ∀ k ∈ keysOf t, isValidCellReference k = true

/-- The public mutating operations of the `A1` class. -/
inductive Op where
  | set (m : List (JsStr × Value))
  | setItem (k : JsStr) (v : Value)
  | removeItem (k : JsStr)
  | clear
  | load (s : JsStr) (o : A1.CSVImportOptions)

/-- The table state after one public operation (the state at exit, also
when the operation throws). -/
def applyOp (t : Table) : Op → Table
  | .set m => (A1.set t m).1
  | .setItem k v => (A1.setItem t k v).1
  | .removeItem k => (A1.removeItem t k).1
  | .clear => A1.clear t
  | .load s o => (A1.loadFromCSVString t s o).1

/-- The head-first recursion equivalent of the loop index list `intRange`. -/
def colSeq (lo : Int) : Nat → List Int
  | 0 => []
  | n + 1 => lo :: colSeq (lo + 1) n

/-! ## C2 groundwork: good values round-trip through render and coerce -/

/-- The value class of the amended round-trip claim: numbers with
terminating decimal expansion, booleans, and plain strings — nonempty,
free of comma/quote/newline/return, not matching the numeric grammar, not
case-insensitively `true`/`false`, and containing a non-whitespace
character. -/
def goodValue : Value → Prop
  | .num q => (q.den : Nat) ∣ 10 ^ q.den
  | .bool _ => True
  | .str s => s ≠ [] ∧ (∀ c ∈ s, c ≠ ',' ∧ c ≠ '"' ∧ c ≠ '\n' ∧ c ≠ '\r') ∧
      numGrammar s = false ∧ s.map toLowerCh ≠ "true".toList ∧
      s.map toLowerCh ≠ "false".toList ∧ ∃ c ∈ s, isJsWs c = false
  | _ => False

/-- The table fragment contributed by one imported row. -/
def rowEntries (row : Int) : Int → List JsStr → Table
  | _, [] => []
  | col, f :: rest =>
    (if A1.isNullValue (parseValue f) = true then []
     else [(canonRef row col, parseValue f)]) ++ rowEntries row (col + 1) rest

/-- The table fragment contributed by a block of imported rows. -/
def rowsEntries : Int → Int → List (List JsStr) → Table
  | _, _, [] => []
  | row, col, r :: rest => rowEntries row col r ++ rowsEntries (row + 1) col rest

/-- The escaped field text `toCSVString` emits for cell `(r, c)`. -/
def fieldFor (t : Table) (r c : Int) : JsStr :=
  escapeCsvValue ((objLookup t (canonRef r c)).getD .undef)

/-- The association-list entry the import re-creates for cell `(r, c)`. -/
def cellEntry (t : Table) (r c : Int) : Option (JsStr × Value) :=
  match objLookup t (canonRef r c) with
  | some v => some (canonRef r c, v)
  | none => none

/-- The entries imported from one row of the exported grid. -/
def rowChunk (t : Table) (r colStart : Int) (n : Nat) : Table :=
  (colSeq colStart n).filterMap (cellEntry t r)

/-- The entries imported from the whole exported grid. -/
def gridChunk (t : Table) (rowStart : Int) (m n : Nat) : Table :=
  (colSeq rowStart m).flatMap fun r => rowChunk t r 1 n

/-! ## C2: the export/import round-trip -/

/-- The `maxRow` of the bounding box; `0` for the empty table. -/
def A1.maxRowOf (t : Table) : Int :=
  ((A1.getBoundingBox t).map (fun bb => bb.maxRow)).getD 0

/-! ## Lemmas and theorems -/

lemma columnNumberToLetterAux_irrel : ∀ fuel₁ fuel₂ num : Nat,
    num ≤ fuel₁ → num ≤ fuel₂ →
    columnNumberToLetterAux fuel₁ num = columnNumberToLetterAux fuel₂ num := by
  intro fuel₁
  induction fuel₁ with
  | zero =>
    intro fuel₂ num h₁ _
    have : num = 0 := by omega
    subst this
    cases fuel₂ <;> simp [columnNumberToLetterAux]
  | succ f ih =>
    intro fuel₂ num h₁ h₂
    by_cases h0 : num = 0
    · subst h0
      cases fuel₂ <;> simp [columnNumberToLetterAux]
    · cases fuel₂ with
      | zero => omega
      | succ g =>
        simp only [columnNumberToLetterAux, if_neg h0]
        congr 1
        exact ih g _ (by omega) (by omega)

/-- The loop-shaped unfolding of `columnNumberToLetter`. -/
lemma columnNumberToLetter_eq (num : Nat) :
    columnNumberToLetter num =
      if num = 0 then []
      else columnNumberToLetter ((num - 1) / 26) ++ [Char.ofNat (65 + (num - 1) % 26)] := by
  by_cases h0 : num = 0
  · subst h0
    simp [columnNumberToLetter, columnNumberToLetterAux]
  · rw [if_neg h0]
    cases num with
    | zero => exact absurd rfl h0
    | succ n =>
      show columnNumberToLetterAux (n + 1) (n + 1) = _
      simp only [columnNumberToLetterAux, if_neg (by omega : ¬ n + 1 = 0)]
      congr 1
      exact columnNumberToLetterAux_irrel n (n / 26) (n / 26)
        (Nat.div_le_self _ _) le_rfl

lemma natToDigitsFuel_irrel : ∀ fuel₁ fuel₂ n : Nat,
    n ≤ fuel₁ → n ≤ fuel₂ →
    natToDigitsFuel fuel₁ n = natToDigitsFuel fuel₂ n := by
  intro fuel₁
  induction fuel₁ with
  | zero =>
    intro fuel₂ n h₁ _
    have : n = 0 := by omega
    subst this
    cases fuel₂ <;> simp [natToDigitsFuel]
  | succ f ih =>
    intro fuel₂ n h₁ h₂
    by_cases h0 : n = 0
    · subst h0
      cases fuel₂ <;> simp [natToDigitsFuel]
    · cases fuel₂ with
      | zero => omega
      | succ g =>
        simp only [natToDigitsFuel, if_neg h0]
        congr 1
        exact ih g _ (by omega) (by omega)

/-- The loop-shaped unfolding of `natToDigitsAux`. -/
lemma natToDigitsAux_eq (n : Nat) :
    natToDigitsAux n =
      if n = 0 then []
      else natToDigitsAux (n / 10) ++ [Char.ofNat (48 + n % 10)] := by
  by_cases h0 : n = 0
  · subst h0
    simp [natToDigitsAux, natToDigitsFuel]
  · rw [if_neg h0]
    cases n with
    | zero => exact absurd rfl h0
    | succ m =>
      show natToDigitsFuel (m + 1) (m + 1) = _
      simp only [natToDigitsFuel, if_neg (by omega : ¬ m + 1 = 0)]
      congr 1
      exact natToDigitsFuel_irrel m ((m + 1) / 10) ((m + 1) / 10)
        (by omega) le_rfl

theorem positionToCellReference_eq (r c : Int) :
    positionToCellReference ⟨r, c⟩ =
      if r < 1 ∨ c < 1 then .error .range else .ok (canonRef r c) := rfl

/-! ## Inverse lemmas for the letter and digit codecs -/

lemma letterChar_toNat (k : Nat) (hk : k < 26) :
    (Char.ofNat (65 + k)).toNat = 65 + k := by
  have h : ∀ j : Fin 26, (Char.ofNat (65 + (j : Nat))).toNat = 65 + (j : Nat) := by decide
  exact h ⟨k, hk⟩

lemma letterChar_isUpper (k : Nat) (hk : k < 26) :
    isUpperAZ (Char.ofNat (65 + k)) = true := by
  have h : ∀ j : Fin 26, isUpperAZ (Char.ofNat (65 + (j : Nat))) = true := by decide
  exact h ⟨k, hk⟩

lemma digitChar_toNat (k : Nat) (hk : k < 10) :
    (Char.ofNat (48 + k)).toNat = 48 + k := by
  have h : ∀ j : Fin 10, (Char.ofNat (48 + (j : Nat))).toNat = 48 + (j : Nat) := by decide
  exact h ⟨k, hk⟩

lemma digitChar_isDigit (k : Nat) (hk : k < 10) :
    isDigitCh (Char.ofNat (48 + k)) = true := by
  have h : ∀ j : Fin 10, isDigitCh (Char.ofNat (48 + (j : Nat))) = true := by decide
  exact h ⟨k, hk⟩

lemma isDigit_not_isUpper {c : Char} (h : isDigitCh c = true) : isUpperAZ c = false := by
  simp only [isDigitCh, Bool.and_eq_true, decide_eq_true_eq] at h
  simp only [isUpperAZ]
  rw [decide_eq_false (by omega : ¬ (65 ≤ c.toNat))]
  simp

lemma columnLetterToNumber_append_singleton (xs : JsStr) (c : Char) :
    columnLetterToNumber (xs ++ [c]) =
      columnLetterToNumber xs * 26 + ((c.toNat : Int) - 64) := by
  simp [columnLetterToNumber, List.foldl_append]

lemma columnLetterToNumber_cons (c : Char) (xs : JsStr) :
    columnLetterToNumber (c :: xs) =
      (xs.foldl (fun result d => result * 26 + ((d.toNat : Int) - 64))
        (((c.toNat : Int) - 64))) := by
  simp [columnLetterToNumber]

lemma columnLetterToNumber_nonneg_aux (xs : JsStr) (acc : Int)
    (hxs : ∀ c ∈ xs, isUpperAZ c = true) (hacc : 0 ≤ acc) :
    acc ≤ xs.foldl (fun result d => result * 26 + ((d.toNat : Int) - 64)) acc := by
  induction xs generalizing acc with
  | nil => simp
  | cons c xs ih =>
    have hc : isUpperAZ c = true := hxs c (by simp)
    have hc' : 65 ≤ c.toNat ∧ c.toNat ≤ 90 := by
      simpa [isUpperAZ, Bool.and_eq_true, decide_eq_true_eq] using hc
    have h1 : acc ≤ acc * 26 + ((c.toNat : Int) - 64) := by
      have : (1 : Int) ≤ (c.toNat : Int) - 64 := by
        have := hc'.1
        omega
      nlinarith
    have h2 : (0 : Int) ≤ acc * 26 + ((c.toNat : Int) - 64) := by
      have := hc'.1
      have : (0 : Int) ≤ acc * 26 := by positivity
      omega
    calc acc ≤ acc * 26 + ((c.toNat : Int) - 64) := h1
      _ ≤ _ := ih (acc * 26 + ((c.toNat : Int) - 64))
          (fun d hd => hxs d (List.mem_cons_of_mem _ hd)) h2

/-- A nonempty all-uppercase string has letter value at least 1. -/
lemma columnLetterToNumber_pos (xs : JsStr) (hne : xs ≠ [])
    (hxs : ∀ c ∈ xs, isUpperAZ c = true) : 1 ≤ columnLetterToNumber xs := by
  cases xs with
  | nil => exact absurd rfl hne
  | cons c rest =>
    have hc : 65 ≤ c.toNat ∧ c.toNat ≤ 90 := by
      simpa [isUpperAZ, Bool.and_eq_true, decide_eq_true_eq] using hxs c (by simp)
    rw [columnLetterToNumber_cons]
    have h1 : (1 : Int) ≤ (c.toNat : Int) - 64 := by omega
    calc (1 : Int) ≤ (c.toNat : Int) - 64 := h1
      _ ≤ _ := columnLetterToNumber_nonneg_aux rest _
          (fun d hd => hxs d (by simp [hd])) (by omega)

lemma columnLetterToNumber_nonneg (xs : JsStr)
    (hxs : ∀ c ∈ xs, isUpperAZ c = true) : 0 ≤ columnLetterToNumber xs := by
  cases xs with
  | nil => simp [columnLetterToNumber]
  | cons c rest => exact le_trans (by omega) (columnLetterToNumber_pos _ (by simp) hxs)

lemma columnNumberToLetter_zero : columnNumberToLetter 0 = [] := rfl

/-- Forward spec of the bijective base-26 rendering: for `n ≥ 1` it is a
nonempty uppercase string whose letter value is `n`. -/
lemma columnNumberToLetter_spec : ∀ n : Nat, 1 ≤ n →
    columnNumberToLetter n ≠ [] ∧
    (∀ c ∈ columnNumberToLetter n, isUpperAZ c = true) ∧
    columnLetterToNumber (columnNumberToLetter n) = (n : Int) := by
  intro n
  induction n using Nat.strong_induction_on with
  | _ n ih =>
    intro hn
    have hne : n ≠ 0 := by omega
    rw [columnNumberToLetter_eq, if_neg hne]
    set m := n - 1 with hm
    have hmod : m % 26 < 26 := Nat.mod_lt _ (by omega)
    have hchar := letterChar_toNat (m % 26) hmod
    have hupper := letterChar_isUpper (m % 26) hmod
    have hprefix : (∀ c ∈ columnNumberToLetter (m / 26), isUpperAZ c = true) ∧
        columnLetterToNumber (columnNumberToLetter (m / 26)) = ((m / 26 : Nat) : Int) := by
      by_cases hq : m / 26 = 0
      · rw [hq, columnNumberToLetter_zero]
        simp [columnLetterToNumber]
      · have hlt : m / 26 < n := by
          have := Nat.div_le_self m 26
          omega
        obtain ⟨_, ih2, ih3⟩ := ih (m / 26) hlt (by omega)
        exact ⟨ih2, ih3⟩
    refine ⟨by simp, ?_, ?_⟩
    · intro c hc
      rcases List.mem_append.1 hc with h | h
      · exact hprefix.1 c h
      · simp only [List.mem_singleton] at h
        subst h; exact hupper
    · rw [columnLetterToNumber_append_singleton, hprefix.2, hchar]
      have := Nat.div_add_mod m 26
      push_cast
      omega

/-- Backward spec: rendering the letter value of a nonempty uppercase string
recovers the string. -/
lemma columnNumberToLetter_of_value : ∀ xs : JsStr, xs ≠ [] →
    (∀ c ∈ xs, isUpperAZ c = true) →
    columnNumberToLetter (columnLetterToNumber xs).toNat = xs := by
  intro xs
  induction xs using List.reverseRecOn with
  | nil => intro h; exact absurd rfl h
  | append_singleton xs c ih =>
    intro _ hup
    have hc : 65 ≤ c.toNat ∧ c.toNat ≤ 90 := by
      simpa [isUpperAZ, Bool.and_eq_true, decide_eq_true_eq] using hup c (by simp)
    have hxsup : ∀ d ∈ xs, isUpperAZ d = true := fun d hd => hup d (by simp [hd])
    rw [columnLetterToNumber_append_singleton]
    set v : Int := (c.toNat : Int) - 64 with hv
    have hv1 : 1 ≤ v ∧ v ≤ 26 := by omega
    have hxs0 : 0 ≤ columnLetterToNumber xs := columnLetterToNumber_nonneg xs hxsup
    set K : Int := columnLetterToNumber xs with hK
    have hNpos : 1 ≤ K * 26 + v := by nlinarith
    have hNtoNat : (K * 26 + v).toNat = K.toNat * 26 + v.toNat := by omega
    rw [columnNumberToLetter_eq, if_neg (by omega)]
    have hm : K.toNat * 26 + v.toNat - 1 = K.toNat * 26 + (v.toNat - 1) := by omega
    have hmod : (K.toNat * 26 + (v.toNat - 1)) % 26 = v.toNat - 1 := by omega
    have hdiv : (K.toNat * 26 + (v.toNat - 1)) / 26 = K.toNat := by omega
    rw [hNtoNat, hm, hmod, hdiv]
    have hcchar : Char.ofNat (65 + (v.toNat - 1)) = c := by
      have : 65 + (v.toNat - 1) = c.toNat := by omega
      rw [this]
      exact Char.ofNat_toNat c
    rw [hcchar]
    cases hxse : xs with
    | nil =>
      have : K = 0 := by simp [hK, hxse, columnLetterToNumber]
      rw [this]
      simp [columnNumberToLetter_zero]
    | cons d rest =>
      have hKpos : 1 ≤ K := columnLetterToNumber_pos xs (by simp [hxse]) hxsup
      rw [← hxse]
      have := ih (by simp [hxse]) hxsup
      rw [this]

/-! ## Inverse lemmas for the decimal digit codec -/

lemma digitsToNat_append_singleton (xs : JsStr) (c : Char) :
    digitsToNat (xs ++ [c]) = digitsToNat xs * 10 + (c.toNat - 48) := by
  simp [digitsToNat, List.foldl_append]

lemma digitsToNat_foldl_ge (xs : JsStr) (acc : Nat) :
    acc ≤ xs.foldl (fun a c => a * 10 + (c.toNat - 48)) acc := by
  induction xs generalizing acc with
  | nil => simp
  | cons c xs ih =>
    calc acc ≤ acc * 10 + (c.toNat - 48) := by omega
      _ ≤ _ := ih _

/-- A nonempty digit string with no leading zero has value at least 1. -/
lemma digitsToNat_pos (d : Char) (rest : JsStr) (hd : isDigitCh d = true)
    (hd0 : d ≠ '0') : 1 ≤ digitsToNat (d :: rest) := by
  have hdn : 49 ≤ d.toNat ∧ d.toNat ≤ 57 := by
    simp only [isDigitCh, Bool.and_eq_true, decide_eq_true_eq] at hd
    rcases Nat.lt_or_ge 48 d.toNat with h | h
    · omega
    · exfalso
      apply hd0
      have hc : d.toNat = 48 := by omega
      have := Char.ofNat_toNat d
      rw [hc] at this
      exact this.symm ▸ rfl
  have : digitsToNat (d :: rest) =
      rest.foldl (fun a c => a * 10 + (c.toNat - 48)) (d.toNat - 48) := by
    simp [digitsToNat]
  rw [this]
  calc 1 ≤ d.toNat - 48 := by omega
    _ ≤ _ := digitsToNat_foldl_ge rest _

lemma natToDigitsAux_zero : natToDigitsAux 0 = [] := rfl

/-- Forward spec of `natToDigitsAux` on positive input: nonempty digit string
with no leading zero whose value is `n`. -/
lemma natToDigitsAux_spec : ∀ n : Nat, 1 ≤ n →
    natToDigitsAux n ≠ [] ∧
    (∀ c ∈ natToDigitsAux n, isDigitCh c = true) ∧
    digitsToNat (natToDigitsAux n) = n ∧
    (∀ d, (natToDigitsAux n).head? = some d → d ≠ '0') := by
  intro n
  induction n using Nat.strong_induction_on with
  | _ n ih =>
    intro hn
    have hne : n ≠ 0 := by omega
    rw [natToDigitsAux_eq, if_neg hne]
    have hmod : n % 10 < 10 := Nat.mod_lt _ (by omega)
    have hchar := digitChar_toNat (n % 10) hmod
    have hdig := digitChar_isDigit (n % 10) hmod
    by_cases hq : n / 10 = 0
    · have hnlt : n < 10 := by omega
      have hmm : n % 10 = n := Nat.mod_eq_of_lt hnlt
      rw [hq, natToDigitsAux_zero]
      simp only [List.nil_append]
      refine ⟨by simp, ?_, ?_, ?_⟩
      · intro c hc
        simp only [List.mem_singleton] at hc
        subst hc; exact hdig
      · simp only [digitsToNat, List.foldl_cons, List.foldl_nil]
        rw [hchar]
        omega
      · intro d hd
        simp only [List.head?_cons, Option.some.injEq] at hd
        subst hd
        intro hcontra
        have h48 : (Char.ofNat (48 + n % 10)).toNat = 48 := by rw [hcontra]; rfl
        rw [hchar] at h48
        omega
    · have hlt : n / 10 < n := Nat.div_lt_self (by omega) (by omega)
      obtain ⟨ih1, ih2, ih3, ih4⟩ := ih (n / 10) hlt (by omega)
      refine ⟨by simp, ?_, ?_, ?_⟩
      · intro c hc
        rcases List.mem_append.1 hc with h | h
        · exact ih2 c h
        · simp only [List.mem_singleton] at h
          subst h; exact hdig
      · rw [digitsToNat_append_singleton, ih3, hchar]
        have := Nat.div_add_mod n 10
        omega
      · intro d hd
        cases haux : natToDigitsAux (n / 10) with
        | nil => exact absurd haux ih1
        | cons x xs =>
          rw [haux] at hd
          simp only [List.cons_append, List.head?_cons, Option.some.injEq] at hd
          subst hd
          exact ih4 x (by rw [haux]; rfl)

lemma natToDigits_spec (n : Nat) (hn : 1 ≤ n) :
    natToDigits n ≠ [] ∧
    (∀ c ∈ natToDigits n, isDigitCh c = true) ∧
    digitsToNat (natToDigits n) = n ∧
    (∀ d, (natToDigits n).head? = some d → d ≠ '0') := by
  rw [natToDigits, if_neg (by omega)]
  exact natToDigitsAux_spec n hn

/-- Backward spec: rendering the value of a nonempty no-leading-zero digit
string recovers the string. -/
lemma natToDigits_of_value : ∀ D : JsStr, D ≠ [] →
    (∀ c ∈ D, isDigitCh c = true) →
    (∀ d, D.head? = some d → d ≠ '0') →
    natToDigits (digitsToNat D) = D := by
  intro D
  induction D using List.reverseRecOn with
  | nil => intro h; exact absurd rfl h
  | append_singleton ds d ih =>
    intro _ hdig hlead
    have hd : 48 ≤ d.toNat ∧ d.toNat ≤ 57 := by
      simpa [isDigitCh, Bool.and_eq_true, decide_eq_true_eq] using hdig d (by simp)
    have hdsdig : ∀ c ∈ ds, isDigitCh c = true := fun c hc => hdig c (by simp [hc])
    rw [digitsToNat_append_singleton]
    set vd : Nat := d.toNat - 48 with hvd
    have hvd10 : vd < 10 := by omega
    set K : Nat := digitsToNat ds with hK
    have hdchar : Char.ofNat (48 + vd) = d := by
      have : 48 + vd = d.toNat := by omega
      rw [this]
      exact Char.ofNat_toNat d
    cases hds : ds with
    | nil =>
      have hK0 : K = 0 := by simp [hK, hds, digitsToNat]
      have hlead' : d ≠ '0' := hlead d (by simp [hds])
      have hvpos : 1 ≤ vd := by
        rcases Nat.lt_or_ge 48 d.toNat with h | h
        · omega
        · exfalso
          apply hlead'
          have hc : d.toNat = 48 := by omega
          have := Char.ofNat_toNat d
          rw [hc] at this
          exact this.symm ▸ rfl
      rw [hK0]
      simp only [Nat.zero_mul, Nat.zero_add]
      rw [natToDigits, if_neg (by omega), natToDigitsAux_eq, if_neg (by omega)]
      have h1 : vd / 10 = 0 := Nat.div_eq_of_lt hvd10
      have h2 : vd % 10 = vd := Nat.mod_eq_of_lt hvd10
      rw [h1, h2, natToDigitsAux_zero]
      simp only [List.nil_append, hdchar]
    | cons x xs =>
      have hxd : isDigitCh x = true := hdsdig x (by simp [hds])
      have hx0 : x ≠ '0' := by
        apply hlead
        simp [hds]
      have hKpos : 1 ≤ K := by
        rw [hK, hds]
        exact digitsToNat_pos x xs hxd hx0
      have hih : natToDigits K = ds := by
        apply ih (by simp [hds]) hdsdig
        intro e he
        rw [hds] at he
        simp only [List.head?_cons, Option.some.injEq] at he
        subst he
        exact hx0
      have hauxK : natToDigitsAux K = ds := by
        rw [natToDigits, if_neg (by omega)] at hih
        exact hih
      have hN : 1 ≤ K * 10 + vd := by omega
      rw [natToDigits, if_neg (by omega), natToDigitsAux_eq, if_neg (by omega)]
      have h1 : (K * 10 + vd) / 10 = K := by omega
      have h2 : (K * 10 + vd) % 10 = vd := by omega
      rw [h1, h2, hauxK, hdchar, hds]

/-! ## The reference grammar and `parseCellReference` -/

lemma span_decomp (p : Char → Bool) : ∀ (L D : JsStr),
    (∀ c ∈ L, p c = true) → (∀ d, D.head? = some d → p d = false) →
    (L ++ D).takeWhile p = L ∧ (L ++ D).dropWhile p = D := by
  intro L
  induction L with
  | nil =>
    intro D _ hD
    simp only [List.nil_append]
    cases D with
    | nil => simp
    | cons d rest =>
      have := hD d rfl
      constructor
      · simp [List.takeWhile, this]
      · simp [List.dropWhile, this]
  | cons c L ih =>
    intro D hL hD
    have hc := hL c (by simp)
    have hrest := ih D (fun d hd => hL d (List.mem_cons_of_mem _ hd)) hD
    constructor
    · simp only [List.cons_append, List.takeWhile, hc]
      show c :: List.takeWhile p (L ++ D) = c :: L
      rw [hrest.1]
    · simp only [List.cons_append, List.dropWhile, hc]
      exact hrest.2

lemma matchCellRef_of_decomp (L D : JsStr) (hL : L ≠ [])
    (hLu : ∀ c ∈ L, isUpperAZ c = true) (hD : D ≠ [])
    (hDd : ∀ c ∈ D, isDigitCh c = true) :
    matchCellRef (L ++ D) = some (L, D) := by
  have hhead : ∀ d, D.head? = some d → isUpperAZ d = false := by
    intro d hd
    exact isDigit_not_isUpper (hDd d (List.mem_of_mem_head? hd))
  obtain ⟨h1, h2⟩ := span_decomp isUpperAZ L D hLu hhead
  rw [matchCellRef]
  simp only [h1, h2]
  rw [if_pos]
  exact ⟨hL, hD, by rw [List.all_eq_true]; exact hDd⟩

lemma matchCellRef_grammar {s : JsStr} {q : JsStr × JsStr}
    (h : matchCellRef s = some q) :
    s = q.1 ++ q.2 ∧ q.1 = s.takeWhile isUpperAZ ∧ q.2 = s.dropWhile isUpperAZ ∧
    q.1 ≠ [] ∧ (∀ c ∈ q.1, isUpperAZ c = true) ∧ q.2 ≠ [] ∧
    (∀ c ∈ q.2, isDigitCh c = true) := by
  rw [matchCellRef] at h
  by_cases hcond : s.takeWhile isUpperAZ ≠ [] ∧ s.dropWhile isUpperAZ ≠ [] ∧
      (s.dropWhile isUpperAZ).all isDigitCh
  · rw [if_pos hcond] at h
    obtain ⟨h1, h2, h3⟩ := hcond
    cases h
    refine ⟨(List.takeWhile_append_dropWhile _ _).symm, rfl, rfl, h1, ?_, h2, ?_⟩
    · intro c hc
      exact List.mem_takeWhile_imp hc
    · intro c hc
      exact (List.all_eq_true.1 h3) c hc
  · rw [if_neg hcond] at h
    cases h

lemma refGrammar_iff_match (s : JsStr) :
    refGrammar s ↔ ∃ q, matchCellRef s = some q := by
  constructor
  · rintro ⟨L, D, rfl, hL, hLu, hD, hDd⟩
    exact ⟨(L, D), matchCellRef_of_decomp L D hL hLu hD hDd⟩
  · rintro ⟨q, hq⟩
    obtain ⟨hs, _, _, h1, h2, h3, h4⟩ := matchCellRef_grammar hq
    exact ⟨q.1, q.2, hs, h1, h2, h3, h4⟩

/-- Decoding the encoded reference of a valid position succeeds and returns
the same position. -/
lemma parseCellReference_canonRef (r c : Int) (hr : 1 ≤ r) (hc : 1 ≤ c) :
    parseCellReference (canonRef r c) = .ok ⟨r, c⟩ := by
  have hcn : 1 ≤ c.toNat := by omega
  have hrn : 1 ≤ r.toNat := by omega
  obtain ⟨hL1, hL2, hL3⟩ := columnNumberToLetter_spec c.toNat hcn
  obtain ⟨hD1, hD2, hD3, _⟩ := natToDigits_spec r.toNat hrn
  rw [parseCellReference, canonRef,
    matchCellRef_of_decomp _ _ hL1 hL2 hD1 hD2]
  simp only [hD3, hL3]
  rw [if_neg (by omega)]
  rw [show ((r.toNat : Int)) = r from by omega, show ((c.toNat : Int)) = c from by omega]

lemma canonRef_valid (r c : Int) (hr : 1 ≤ r) (hc : 1 ≤ c) :
    isValidCellReference (canonRef r c) = true := by
  rw [isValidCellReference, parseCellReference_canonRef r c hr hc]
  rfl

lemma parseCellReference_some {s L D : JsStr} (hm : matchCellRef s = some (L, D)) :
    parseCellReference s =
      if ((digitsToNat D : Int)) < 1 then .error .range
      else .ok ⟨(digitsToNat D : Int), columnLetterToNumber L⟩ := by
  rw [parseCellReference, hm]

lemma isOk_ok {ε α : Type} (x : α) : (Except.ok x : Except ε α).isOk = true := rfl

lemma isOk_error {ε α : Type} (e : ε) : (Except.error e : Except ε α).isOk = false := rfl

lemma noLeadingZeroRow_some {s L D : JsStr} (hm : matchCellRef s = some (L, D)) :
    noLeadingZeroRow s = !(D.head? == some '0') := by
  rw [noLeadingZeroRow, hm]

/-- **C1** (amended).  The codec is a bijection between positions with
`row, column ≥ 1` and canonical reference strings: decoding an encoded
position returns the position; and for every string the codec accepts whose
row digits carry no leading zero, encoding the decoded position returns the
string itself.  (The leading-zero proviso is forced: the codec also accepts
`"A01"`, which re-encodes to `"A1"`, see the counterexample.) -/
theorem codec_bijection (r c : Int) (s : JsStr) :
    (1 ≤ r → 1 ≤ c →
      positionToCellReference ⟨r, c⟩ = .ok (canonRef r c) ∧
      parseCellReference (canonRef r c) = .ok ⟨r, c⟩) ∧
    (isValidCellReference s = true → noLeadingZeroRow s = true →
      ∃ p, parseCellReference s = .ok p ∧ positionToCellReference p = .ok s) := by
  constructor
  · intro hr hc
    constructor
    · rw [positionToCellReference_eq, if_neg (by omega)]
    · exact parseCellReference_canonRef r c hr hc
  · intro hv hz
    rw [isValidCellReference] at hv
    cases hm : matchCellRef s with
    | none =>
      rw [parseCellReference, hm] at hv
      simp [Except.toOption] at hv
    | some q =>
      obtain ⟨L, D⟩ := q
      obtain ⟨hs, _, _, hL1, hL2, hD1, hD2⟩ := matchCellRef_grammar hm
      rw [parseCellReference_some hm] at hv
      by_cases hrow : ((digitsToNat D : Int)) < 1
      · rw [if_pos hrow] at hv
        simp [Except.toOption] at hv
      · refine ⟨⟨(digitsToNat D : Int), columnLetterToNumber L⟩, ?_, ?_⟩
        · rw [parseCellReference_some hm, if_neg hrow]
        · have hcol : 1 ≤ columnLetterToNumber L := columnLetterToNumber_pos L hL1 hL2
          rw [positionToCellReference_eq, if_neg (by omega)]
          rw [noLeadingZeroRow_some hm] at hz
          have hhead : ∀ d, D.head? = some d → d ≠ '0' := by
            intro d hd hcontra
            subst hcontra
            rw [hd] at hz
            simp at hz
          have hDval : natToDigits (digitsToNat D) = D :=
            natToDigits_of_value D hD1 hD2 hhead
          have hLval : columnNumberToLetter (columnLetterToNumber L).toNat = L :=
            columnNumberToLetter_of_value L hL1 hL2
          rw [canonRef]
          rw [show ((digitsToNat D : Int)).toNat = digitsToNat D from by omega]
          rw [hDval, hLval, hs]

/-- Closed witness for `codec_bijection`: both directions at the concrete
position `(104, 104)` / string `"CZ104"`. -/
theorem codec_bijection_witness :
    (positionToCellReference ⟨104, 104⟩ = .ok (canonRef 104 104) ∧
      parseCellReference (canonRef 104 104) = .ok ⟨104, 104⟩) ∧
    (∃ p, parseCellReference ("CZ104".toList) = .ok p ∧
      positionToCellReference p = .ok ("CZ104".toList)) :=
  ⟨(codec_bijection 104 104 ("CZ104".toList)).1 (by norm_num) (by norm_num),
   (codec_bijection 104 104 ("CZ104".toList)).2 (by decide) (by decide)⟩

/-- Counterexample to C1 as stated: `"A01"` is accepted by the codec
(`isValidCellReference` is true) but decodes to `(1, 1)`, which re-encodes
to the different string `"A1"`. -/
theorem codec_bijection_counterexample :
    isValidCellReference ("A01".toList) = true ∧
    parseCellReference ("A01".toList) = .ok ⟨1, 1⟩ ∧
    positionToCellReference ⟨1, 1⟩ = .ok ("A1".toList) ∧
    ("A1".toList : JsStr) ≠ ("A01".toList : JsStr) :=
  ⟨by decide, rfl, rfl, by decide⟩

/-- **C7** (confirmed).  Decoding fails exactly on grammar mismatch
(format error) or a parsed row below 1 (range error); encoding fails exactly
when the row or column is below 1; both succeed whenever their precondition
holds. -/
theorem codec_error_conditions (s : JsStr) (r c : Int) :
    ((parseCellReference s).isOk = true ↔
      refGrammar s ∧ 1 ≤ digitsToNat (s.dropWhile isUpperAZ)) ∧
    (parseCellReference s = .error .format ↔ ¬ refGrammar s) ∧
    (parseCellReference s = .error .range ↔
      refGrammar s ∧ digitsToNat (s.dropWhile isUpperAZ) = 0) ∧
    ((positionToCellReference ⟨r, c⟩).isOk = true ↔ 1 ≤ r ∧ 1 ≤ c) := by
  have henc : (positionToCellReference ⟨r, c⟩).isOk = true ↔ 1 ≤ r ∧ 1 ≤ c := by
    rw [positionToCellReference_eq]
    by_cases h : r < 1 ∨ c < 1
    · rw [if_pos h, isOk_error]
      constructor
      · intro hc'; cases hc'
      · intro hc'; omega
    · rw [if_neg h, isOk_ok]
      constructor
      · intro _; omega
      · intro _; rfl
  cases hm : matchCellRef s with
  | none =>
    have hng : ¬ refGrammar s := by
      rw [refGrammar_iff_match]
      rintro ⟨q, hq⟩
      rw [hm] at hq
      cases hq
    have hperr : parseCellReference s = .error .format := by
      rw [parseCellReference, hm]
    refine ⟨?_, ?_, ?_, henc⟩
    · rw [hperr, isOk_error]
      constructor
      · intro hc'; cases hc'
      · rintro ⟨hg, _⟩; exact absurd hg hng
    · rw [hperr]
      simp [hng]
    · rw [hperr]
      constructor
      · intro hc'; cases hc'
      · rintro ⟨hg, _⟩; exact absurd hg hng
  | some q =>
    obtain ⟨L, D⟩ := q
    obtain ⟨hs, _, hDeq, hL1, hL2, hD1, hD2⟩ := matchCellRef_grammar hm
    have hg : refGrammar s := (refGrammar_iff_match s).2 ⟨(L, D), hm⟩
    have hDrop : s.dropWhile isUpperAZ = D := hDeq.symm
    refine ⟨?_, ?_, ?_, henc⟩
    · rw [parseCellReference_some hm, hDrop]
      by_cases hrow : ((digitsToNat D : Int)) < 1
      · rw [if_pos hrow, isOk_error]
        constructor
        · intro hc'; cases hc'
        · rintro ⟨_, hd⟩; omega
      · rw [if_neg hrow, isOk_ok]
        constructor
        · intro _; exact ⟨hg, by omega⟩
        · intro _; rfl
    · rw [parseCellReference_some hm]
      by_cases hrow : ((digitsToNat D : Int)) < 1
      · rw [if_pos hrow]
        constructor
        · intro hc'; cases hc'
        · intro hng; exact absurd hg hng
      · rw [if_neg hrow]
        constructor
        · intro hc'; cases hc'
        · intro hng; exact absurd hg hng
    · rw [parseCellReference_some hm, hDrop]
      by_cases hrow : ((digitsToNat D : Int)) < 1
      · rw [if_pos hrow]
        constructor
        · intro _; exact ⟨hg, by omega⟩
        · intro _; rfl
      · rw [if_neg hrow]
        constructor
        · intro hc'; cases hc'
        · rintro ⟨_, hd⟩; omega

/-! ## Round-trip of numeric rendering and coercion -/

lemma digitsToNat_foldl_eq (s : JsStr) : ∀ acc : Nat,
    s.foldl (fun a c => a * 10 + (c.toNat - 48)) acc =
      acc * 10 ^ s.length + digitsToNat s := by
  induction s with
  | nil => intro acc; simp [digitsToNat]
  | cons c s ih =>
    intro acc
    have hc : digitsToNat (c :: s) =
        (c.toNat - 48) * 10 ^ s.length + digitsToNat s := by
      show List.foldl _ (0 * 10 + (c.toNat - 48)) s = _
      rw [ih]
      ring_nf
    show List.foldl _ (acc * 10 + (c.toNat - 48)) s = _
    rw [ih, hc]
    ring_nf
    rw [List.length_cons]
    ring

lemma digitsToNat_cons (c : Char) (s : JsStr) :
    digitsToNat (c :: s) = (c.toNat - 48) * 10 ^ s.length + digitsToNat s := by
  show List.foldl _ (0 * 10 + (c.toNat - 48)) s = _
  rw [digitsToNat_foldl_eq]
  ring_nf

lemma fracDigits_spec : ∀ (fuel r d : Nat), 0 < d → r < d → d ∣ r * 10 ^ fuel →
    (∀ c ∈ fracDigits fuel r d, isDigitCh c = true) ∧
    digitsToNat (fracDigits fuel r d) * d = r * 10 ^ (fracDigits fuel r d).length := by
  intro fuel
  induction fuel with
  | zero =>
    intro r d hd hr hdvd
    simp only [pow_zero, Nat.mul_one] at hdvd
    have hr0 : r = 0 := Nat.eq_zero_of_dvd_of_lt hdvd hr
    subst hr0
    simp [fracDigits, digitsToNat]
  | succ fuel ih =>
    intro r d hd hr hdvd
    by_cases hr0 : r = 0
    · subst hr0
      simp [fracDigits, digitsToNat]
    · have hdigit : (r * 10) / d < 10 := by
        rw [Nat.div_lt_iff_lt_mul hd]
        omega
      have hchar := digitChar_toNat ((r * 10) / d) hdigit
      have hdig := digitChar_isDigit ((r * 10) / d) hdigit
      have hrlt : (r * 10) % d < d := Nat.mod_lt _ hd
      have hdvd' : d ∣ ((r * 10) % d) * 10 ^ fuel := by
        have h1 : (r * 10) % d ≡ r * 10 [MOD d] := (Nat.mod_modEq _ _)
        have h2 : ((r * 10) % d) * 10 ^ fuel ≡ r * 10 * 10 ^ fuel [MOD d] :=
          h1.mul_right _
        have h3 : d ∣ r * 10 * 10 ^ fuel := by
          have : r * 10 ^ (fuel + 1) = r * 10 * 10 ^ fuel := by ring
          rw [← this]
          exact hdvd
        exact Nat.modEq_zero_iff_dvd.1 (h2.trans (Nat.modEq_zero_iff_dvd.2 h3))
      obtain ⟨ihdig, ihval⟩ := ih ((r * 10) % d) d hd hrlt hdvd'
      have hF : fracDigits (fuel + 1) r d =
          Char.ofNat (48 + (r * 10) / d) :: fracDigits fuel ((r * 10) % d) d := by
        simp [fracDigits, hr0]
      rw [hF]
      constructor
      · intro c hc
        rcases List.mem_cons.1 hc with h | h
        · subst h; exact hdig
        · exact ihdig c h
      · rw [digitsToNat_cons, hchar]
        set F := fracDigits fuel ((r * 10) % d) d
        set P : Nat := 10 ^ F.length with hP
        have hstep : (48 + (r * 10) / d - 48) = (r * 10) / d :=
          Nat.add_sub_cancel_left 48 _
        rw [hstep]
        have hexp : (Char.ofNat (48 + (r * 10) / d) :: F).length = F.length + 1 := rfl
        rw [hexp, pow_succ]
        have hdm : d * ((r * 10) / d) + (r * 10) % d = r * 10 := Nat.div_add_mod _ _
        calc ((r * 10) / d * P + digitsToNat F) * d
            = (r * 10) / d * d * P + digitsToNat F * d := by ring
          _ = (r * 10) / d * d * P + (r * 10) % d * P := by rw [ihval]
          _ = (d * ((r * 10) / d) + (r * 10) % d) * P := by ring
          _ = (r * 10) * P := by rw [hdm]
          _ = r * (P * 10) := by ring

lemma natToDigits_facts (n : Nat) :
    natToDigits n ≠ [] ∧ (∀ c ∈ natToDigits n, isDigitCh c = true) ∧
    digitsToNat (natToDigits n) = n := by
  by_cases h0 : n = 0
  · subst h0
    refine ⟨by decide, ?_, by decide⟩
    intro c hc
    have hc' : c = '0' := by simpa [natToDigits] using hc
    subst hc'
    decide
  · obtain ⟨h1, h2, h3, _⟩ := natToDigits_spec n (by omega)
    exact ⟨h1, h2, h3⟩

lemma head_digit_of_ne_nil {l : JsStr} (h1 : l ≠ [])
    (h2 : ∀ c ∈ l, isDigitCh c = true) :
    ∃ c0, l.head? = some c0 ∧ isDigitCh c0 = true := by
  cases l with
  | nil => exact absurd rfl h1
  | cons c rest => exact ⟨c, rfl, h2 c (List.mem_cons_self _ _)⟩

lemma head?_append_of_ne_nil {l l₂ : List Char} (h : l ≠ []) :
    (l ++ l₂).head? = l.head? := by
  cases l with
  | nil => exact absurd rfl h
  | cons c rest => rfl

lemma renderPos_spec (n d : Nat) (hd : 0 < d) (hdvd : d ∣ 10 ^ d) :
    renderPos n d ≠ [] ∧
    (∀ c ∈ renderPos n d, isDigitCh c = true ∨ c = '.') ∧
    (∃ c0, (renderPos n d).head? = some c0 ∧ isDigitCh c0 = true) ∧
    numGrammarBody (renderPos n d) = true ∧
    parseDecimalBody (renderPos n d) = (n : ℚ) / (d : ℚ) := by
  obtain ⟨hI1, hI2, hI3⟩ := natToDigits_facts (n / d)
  have hdQ : ((d : ℚ)) ≠ 0 := by
    exact_mod_cast Nat.pos_iff_ne_zero.1 hd
  by_cases hmod : n % d = 0
  · have hrest : renderPos n d = natToDigits (n / d) ++ [] := by
      rw [renderPos, if_pos hmod]
    rw [hrest, List.append_nil]
    have hfq : ((n / d : Nat) : ℚ) = (n : ℚ) / (d : ℚ) := by
      rw [eq_div_iff hdQ]
      have : n / d * d = n := Nat.div_mul_cancel (Nat.dvd_of_mod_eq_zero hmod)
      exact_mod_cast congrArg (fun m : Nat => (m : ℚ)) this
    refine ⟨hI1, fun c hc => Or.inl (hI2 c hc), head_digit_of_ne_nil hI1 hI2, ?_, ?_⟩
    · have hspan := span_decomp isDigitCh (natToDigits (n / d)) [] hI2 (by intro e he; cases he)
      simp only [List.append_nil] at hspan
      rw [numGrammarBody]
      simp only [hspan.1, hspan.2]
      simp [hI1]
    · have hspan := span_decomp isDigitCh (natToDigits (n / d)) [] hI2 (by intro e he; cases he)
      simp only [List.append_nil] at hspan
      rw [parseDecimalBody]
      simp only [hspan.1, hspan.2, hI3]
      have h0 : digitsToNat ([] : JsStr) = 0 := rfl
      simp only [List.tail_nil, List.length_nil, pow_zero, h0, Nat.cast_zero, zero_div, add_zero]
      exact hfq
  · have hrlt : n % d < d := Nat.mod_lt _ hd
    have hdvdF : d ∣ (n % d) * 10 ^ d := Dvd.dvd.mul_left hdvd _
    obtain ⟨hF1, hF2⟩ := fracDigits_spec d (n % d) d hd hrlt hdvdF
    have hFne : fracDigits d (n % d) d ≠ [] := by
      cases d with
      | zero => omega
      | succ d' => simp [fracDigits, hmod]
    set F := fracDigits d (n % d) d with hFdef
    have hrest : renderPos n d = natToDigits (n / d) ++ ('.' :: F) := by
      rw [renderPos, if_neg hmod]
    have hdot : isDigitCh '.' = false := by decide
    have hspan := span_decomp isDigitCh (natToDigits (n / d)) ('.' :: F) hI2
      (by intro e he; cases he; exact hdot)
    rw [hrest]
    refine ⟨by simp [hI1], ?_, ?_, ?_, ?_⟩
    · intro c hc
      rcases List.mem_append.1 hc with h | h
      · exact Or.inl (hI2 c h)
      · rcases List.mem_cons.1 h with h | h
        · exact Or.inr h
        · exact Or.inl (hF1 c h)
    · obtain ⟨c0, hc0, hc0d⟩ := head_digit_of_ne_nil hI1 hI2
      exact ⟨c0, by rw [head?_append_of_ne_nil hI1, hc0], hc0d⟩
    · rw [numGrammarBody]
      simp only [hspan.1, hspan.2]
      have hall : F.all isDigitCh = true := List.all_eq_true.2 hF1
      have h1 : (natToDigits (n / d)).isEmpty = false := by
        cases hI : natToDigits (n / d) with
        | nil => exact absurd hI hI1
        | cons c rest => rfl
      simp only [h1, Bool.not_false, Bool.true_and, List.isEmpty_cons, Bool.false_or,
        List.head?_cons, List.tail_cons, beq_self_eq_true, Bool.true_and, hall]
    · rw [parseDecimalBody]
      simp only [hspan.1, hspan.2, hI3, List.tail_cons]
      have hcast : (digitsToNat F : ℚ) * (d : ℚ) = ((n % d : Nat) : ℚ) * (10 : ℚ) ^ F.length := by
        exact_mod_cast congrArg (fun m : Nat => (m : ℚ)) hF2
      have hpow : ((10 : ℚ)) ^ F.length ≠ 0 := by positivity
      have hfrac : (digitsToNat F : ℚ) / (10 : ℚ) ^ F.length = ((n % d : Nat) : ℚ) / (d : ℚ) := by
        rw [div_eq_div_iff hpow hdQ]
        linarith [hcast]
      rw [hfrac]
      have hdm : ((n / d : Nat) : ℚ) * d + ((n % d : Nat) : ℚ) = (n : ℚ) := by
        have h := Nat.div_add_mod n d
        have h2 : ((d * (n / d) + n % d : Nat) : ℚ) = (n : ℚ) := by
          exact_mod_cast congrArg (fun m : Nat => (m : ℚ)) h
        push_cast at h2
        linarith [h2]
      rw [eq_div_iff hdQ, add_mul, div_mul_cancel₀ _ hdQ]
      linarith [hdm]

lemma renderNum_spec (q : ℚ) (hden : (q.den : Nat) ∣ 10 ^ q.den) :
    parseValue (renderNum q) = .num q ∧
    (∀ c ∈ renderNum q, isDigitCh c = true ∨ c = '.' ∨ c = '-') ∧
    (∃ c ∈ renderNum q, isDigitCh c = true) ∧
    renderNum q ≠ [] := by
  have hdot45 : ∀ c0 : Char, isDigitCh c0 = true → (some c0 ≠ some '-') := by
    intro c0 hc0 hcontra
    simp only [Option.some.injEq] at hcontra
    subst hcontra
    exact absurd hc0 (by decide)
  by_cases hq : q < 0
  · have hden' : ((-q).den : Nat) ∣ 10 ^ (-q).den := by
      rw [Rat.den_neg_eq_den]
      exact hden
    have hd : 0 < (-q).den := (-q).den_pos
    obtain ⟨hP1, hP2, ⟨c0, hc0h, hc0d⟩, hP4, hP5⟩ :=
      renderPos_spec (-q).num.toNat (-q).den hd (by rw [Rat.den_neg_eq_den] at hden' ⊢; exact hden')
    have hrn : renderNum q = '-' :: renderPos (-q).num.toNat (-q).den := by
      rw [renderNum, if_pos hq]
    have hnum : (((-q).num.toNat : Nat) : ℚ) = ((-q).num : ℚ) := by
      have : 0 ≤ (-q).num := by
        rw [Rat.num_nonneg]
        linarith
      exact_mod_cast congrArg (fun z : Int => (z : ℚ)) (Int.toNat_of_nonneg this)
    have hval : parseDecimalBody (renderPos (-q).num.toNat (-q).den) = -q := by
      rw [hP5, hnum]
      have := Rat.num_div_den (-q)
      exact_mod_cast this
    refine ⟨?_, ?_, ?_, by simp [hrn]⟩
    · rw [hrn, parseValue]
      rw [if_neg (by simp)]
      have hcond : ('-' :: renderPos (-q).num.toNat (-q).den).head? = some '-' := rfl
      have hg : numGrammar ('-' :: renderPos (-q).num.toNat (-q).den) = true := by
        rw [numGrammar, if_pos hcond, List.tail_cons]
        exact hP4
      rw [if_pos hg]
      have hpd : parseDecimal ('-' :: renderPos (-q).num.toNat (-q).den) = q := by
        rw [parseDecimal, if_pos hcond, List.tail_cons, hval]
        ring
      rw [hpd]
    · intro c hc
      rw [hrn] at hc
      rcases List.mem_cons.1 hc with h | h
      · exact Or.inr (Or.inr h)
      · rcases hP2 c h with h' | h'
        · exact Or.inl h'
        · exact Or.inr (Or.inl h')
    · refine ⟨c0, ?_, hc0d⟩
      rw [hrn]
      exact List.mem_cons_of_mem _ (List.mem_of_mem_head? hc0h)
  · have hd : 0 < q.den := q.den_pos
    obtain ⟨hP1, hP2, ⟨c0, hc0h, hc0d⟩, hP4, hP5⟩ :=
      renderPos_spec q.num.toNat q.den hd hden
    have hrn : renderNum q = renderPos q.num.toNat q.den := by
      rw [renderNum, if_neg hq]
    have hnum : ((q.num.toNat : Nat) : ℚ) = (q.num : ℚ) := by
      have : 0 ≤ q.num := by
        rw [Rat.num_nonneg]
        linarith
      exact_mod_cast congrArg (fun z : Int => (z : ℚ)) (Int.toNat_of_nonneg this)
    have hval : parseDecimalBody (renderPos q.num.toNat q.den) = q := by
      rw [hP5, hnum]
      exact_mod_cast Rat.num_div_den q
    refine ⟨?_, ?_, ?_, by rw [hrn]; exact hP1⟩
    · rw [hrn, parseValue]
      rw [if_neg hP1]
      have hg : numGrammar (renderPos q.num.toNat q.den) = true := by
        rw [numGrammar, if_neg (by rw [hc0h]; exact hdot45 c0 hc0d)]
        exact hP4
      rw [if_pos hg]
      have hpd : parseDecimal (renderPos q.num.toNat q.den) = q := by
        rw [parseDecimal, if_neg (by rw [hc0h]; exact hdot45 c0 hc0d)]
        exact hval
      rw [hpd]
    · intro c hc
      rw [hrn] at hc
      rcases hP2 c hc with h' | h'
      · exact Or.inl h'
      · exact Or.inr (Or.inl h')
    · exact ⟨c0, by rw [hrn]; exact List.mem_of_mem_head? hc0h, hc0d⟩

lemma keysOf_nil : keysOf ([] : Table) = [] := rfl

lemma keysOf_cons (k : JsStr) (v : Value) (t : Table) :
    keysOf ((k, v) :: t) = k :: keysOf t := rfl

lemma objLookup_cons (k0 k : JsStr) (v0 : Value) (t : Table) :
    objLookup ((k0, v0) :: t) k = if k0 = k then some v0 else objLookup t k := rfl

lemma objSet_cons (k0 k : JsStr) (v0 v : Value) (t : Table) :
    objSet ((k0, v0) :: t) k v =
      if k0 = k then (k0, v) :: t else (k0, v0) :: objSet t k v := rfl

lemma objDelete_cons (k0 k : JsStr) (v0 : Value) (t : Table) :
    objDelete ((k0, v0) :: t) k =
      if k0 = k then t else (k0, v0) :: objDelete t k := rfl

lemma objLookup_objSet_self (t : Table) (k : JsStr) (v : Value) :
    objLookup (objSet t k v) k = some v := by
  induction t with
  | nil => simp [objSet, objLookup]
  | cons kv rest ih =>
    obtain ⟨k', v'⟩ := kv
    by_cases h : k' = k
    · subst h
      rw [objSet_cons, if_pos rfl, objLookup_cons, if_pos rfl]
    · rw [objSet_cons, if_neg h, objLookup_cons, if_neg h]
      exact ih

lemma objLookup_objSet_ne (t : Table) (k k' : JsStr) (v : Value) (h : k' ≠ k) :
    objLookup (objSet t k' v) k = objLookup t k := by
  induction t with
  | nil =>
    show objLookup [(k', v)] k = none
    rw [objLookup_cons, if_neg h]
    rfl
  | cons kv rest ih =>
    obtain ⟨k0, v0⟩ := kv
    by_cases h0 : k0 = k'
    · subst h0
      rw [objSet_cons, if_pos rfl, objLookup_cons, objLookup_cons, if_neg h, if_neg h]
    · rw [objSet_cons, if_neg h0, objLookup_cons, objLookup_cons]
      by_cases h1 : k0 = k
      · rw [if_pos h1, if_pos h1]
      · rw [if_neg h1, if_neg h1]
        exact ih

lemma keysOf_objSet (t : Table) (k : JsStr) (v : Value) :
    keysOf (objSet t k v) = if k ∈ keysOf t then keysOf t else keysOf t ++ [k] := by
  induction t with
  | nil =>
    rw [keysOf_nil, if_neg (List.not_mem_nil k)]
    rfl
  | cons kv rest ih =>
    obtain ⟨k0, v0⟩ := kv
    rw [keysOf_cons]
    by_cases h0 : k0 = k
    · subst h0
      rw [objSet_cons, if_pos rfl, keysOf_cons,
        if_pos (List.mem_cons_self k0 (keysOf rest))]
    · rw [objSet_cons, if_neg h0, keysOf_cons, ih]
      by_cases h1 : k ∈ keysOf rest
      · rw [if_pos h1, if_pos (List.mem_cons_of_mem k0 h1)]
      · rw [if_neg h1, if_neg ?hn]
        · rfl
        case hn =>
          intro hcontra
          rcases List.mem_cons.1 hcontra with h | h
          · exact h0 h.symm
          · exact h1 h

lemma keysOf_objDelete_sub (t : Table) (k : JsStr) :
    ∀ x ∈ keysOf (objDelete t k), x ∈ keysOf t := by
  induction t with
  | nil => simp [objDelete]
  | cons kv rest ih =>
    obtain ⟨k0, v0⟩ := kv
    intro x hx
    rw [objDelete_cons] at hx
    by_cases h0 : k0 = k
    · rw [if_pos h0] at hx
      rw [keysOf_cons]
      exact List.mem_cons_of_mem _ hx
    · rw [if_neg h0, keysOf_cons] at hx
      rw [keysOf_cons]
      rcases List.mem_cons.1 hx with h | h
      · exact h ▸ List.mem_cons_self _ _
      · exact List.mem_cons_of_mem _ (ih x h)

lemma objLookup_mem_keys {t : Table} {k : JsStr} {v : Value}
    (h : objLookup t k = some v) : k ∈ keysOf t := by
  induction t with
  | nil => cases h
  | cons kv rest ih =>
    obtain ⟨k0, v0⟩ := kv
    rw [objLookup_cons] at h
    rw [keysOf_cons]
    by_cases h0 : k0 = k
    · exact h0 ▸ List.mem_cons_self _ _
    · rw [if_neg h0] at h
      exact List.mem_cons_of_mem _ (ih h)

lemma objLookup_none_of_not_mem {t : Table} {k : JsStr}
    (h : k ∉ keysOf t) : objLookup t k = none := by
  induction t with
  | nil => rfl
  | cons kv rest ih =>
    obtain ⟨k0, v0⟩ := kv
    rw [keysOf_cons] at h
    have h1 : ¬ (k = k0 ∨ k ∈ keysOf rest) := fun hc => h (List.mem_cons.2 hc)
    rw [objLookup_cons, if_neg (fun hc => h1 (Or.inl hc.symm))]
    exact ih (fun hc => h1 (Or.inr hc))

lemma mem_of_objLookup_some {t : Table} {k : JsStr} {v : Value}
    (h : objLookup t k = some v) : (k, v) ∈ t := by
  induction t with
  | nil => cases h
  | cons kv rest ih =>
    obtain ⟨k0, v0⟩ := kv
    rw [objLookup_cons] at h
    by_cases h0 : k0 = k
    · rw [if_pos h0] at h
      cases h
      subst h0
      exact List.mem_cons_self _ _
    · rw [if_neg h0] at h
      exact List.mem_cons_of_mem _ (ih h)

lemma objLookup_of_mem_nodup {t : Table} {k : JsStr} {v : Value}
    (hnd : (keysOf t).Nodup) (hm : (k, v) ∈ t) : objLookup t k = some v := by
  induction t with
  | nil => cases hm
  | cons kv rest ih =>
    obtain ⟨k0, v0⟩ := kv
    rw [keysOf_cons, List.nodup_cons] at hnd
    rcases List.mem_cons.1 hm with h | h
    · cases h
      rw [objLookup_cons, if_pos rfl]
    · have hne : k0 ≠ k := by
        intro hcontra
        subst hcontra
        exact hnd.1 (by simpa [keysOf] using List.mem_map_of_mem Prod.fst h)
      rw [objLookup_cons, if_neg hne]
      exact ih hnd.2 h

/-! ## C5: CSV escaping -/

lemma escapeCsvValue_of_ne (v : Value) (h1 : v ≠ .null) (h2 : v ≠ .undef) :
    escapeCsvValue v =
      if hasCsvSpecial (jsString v) then '"' :: (doubleQuotes (jsString v) ++ ['"'])
      else jsString v := by
  cases v with
  | null => exact absurd rfl h1
  | undef => exact absurd rfl h2
  | bool b => rfl
  | num q => rfl
  | str s => rfl
  | obj f => rfl

lemma doubleQuotes_length_ge (s : JsStr) : s.length ≤ (doubleQuotes s).length := by
  induction s with
  | nil => simp [doubleQuotes]
  | cons c rest ih =>
    rw [doubleQuotes] at ih ⊢
    by_cases h : c = '"'
    · simp only [List.flatMap_cons, if_pos h, List.length_append, List.length_cons]
      simp at ih ⊢
      omega
    · simp only [List.flatMap_cons, if_neg h, List.length_append, List.length_cons]
      simp at ih ⊢
      omega

/-- **C5** (amended).  `escapeCsvValue` wraps the rendered field in quotes
and doubles internal quotes exactly when the rendered text contains a
comma, a quote, a line feed, or a carriage return — the comma being the
hard-coded default separator: the configured separator option plays no role
in this test (see the counterexample for a separator `";"`). -/
theorem csv_escaping (v : Value) (h1 : v ≠ .null) (h2 : v ≠ .undef) :
    (hasCsvSpecial (jsString v) = true →
      escapeCsvValue v = '"' :: (doubleQuotes (jsString v) ++ ['"'])) ∧
    (hasCsvSpecial (jsString v) = false → escapeCsvValue v = jsString v) ∧
    (escapeCsvValue v = jsString v ↔ hasCsvSpecial (jsString v) = false) := by
  rw [escapeCsvValue_of_ne v h1 h2]
  by_cases hs : hasCsvSpecial (jsString v) = true
  · rw [if_pos hs]
    refine ⟨fun _ => rfl, ?_, ?_⟩
    · intro h
      rw [h] at hs
      cases hs
    · constructor
      · intro hcontra
        exfalso
        have hlen := congrArg List.length hcontra
        simp only [List.length_cons, List.length_append, List.length_singleton] at hlen
        have := doubleQuotes_length_ge (jsString v)
        omega
      · intro h
        rw [h] at hs
        cases hs
  · rw [if_neg hs]
    have hs2 : hasCsvSpecial (jsString v) = false := by
      cases h : hasCsvSpecial (jsString v)
      · rfl
      · exact absurd h hs
    exact ⟨fun h => absurd h hs, fun _ => rfl, by simp [hs2]⟩

/-- Closed witness for `csv_escaping` at the value `"a,b"` (special: wraps)
and at `"ab"` (plain: unchanged). -/
theorem csv_escaping_witness :
    escapeCsvValue (.str ("a,b".toList)) =
      '"' :: (doubleQuotes (jsString (.str ("a,b".toList))) ++ ['"']) ∧
    escapeCsvValue (.str ("ab".toList)) = jsString (.str ("ab".toList)) :=
  ⟨(csv_escaping (.str ("a,b".toList)) (by intro h; cases h) (by intro h; cases h)).1
      (by decide),
   (csv_escaping (.str ("ab".toList)) (by intro h; cases h) (by intro h; cases h)).2.1
      (by decide)⟩

/-- Counterexample to C5 as stated: with the configured separator `";"`,
the field `"a;b"` contains the separator yet is emitted unchanged and
unquoted, both by `escapeCsvValue` and in the actual `toCSVString` output. -/
theorem csv_escaping_counterexample :
    A1.toCSVString [(("A1".toList), .str ("a;b".toList))] ⟨';', false, ['\n'], true⟩
      = "a;b".toList ∧
    (("a;b".toList : JsStr).contains ';' = true) ∧
    escapeCsvValue (.str ("a;b".toList)) = "a;b".toList := by
  refine ⟨by decide, by decide, by decide⟩

/-- **C6** (amended).  `parseValue` returns null exactly on the empty
string; returns the parsed number exactly on strings matching the code
grammar `-?\d+\.?\d*` (which, unlike the claimed `-?digits(.digits)?`,
also accepts a trailing dot as in `"5."`); then case-insensitive booleans;
then the unchanged string — in particular `"True"` becomes `true` and
`"NaN"`/`"Infinity"` stay strings. -/
theorem parseValue_coercion (s : JsStr) :
    (parseValue s = .null ↔ s = []) ∧
    (s ≠ [] → numGrammar s = true → parseValue s = .num (parseDecimal s)) ∧
    (s ≠ [] → numGrammar s = false → s.map toLowerCh = "true".toList →
      parseValue s = .bool true) ∧
    (s ≠ [] → numGrammar s = false → s.map toLowerCh = "false".toList →
      parseValue s = .bool false) ∧
    (s ≠ [] → numGrammar s = false → s.map toLowerCh ≠ "true".toList →
      s.map toLowerCh ≠ "false".toList → parseValue s = .str s) ∧
    parseValue ("True".toList) = .bool true ∧
    parseValue ("NaN".toList) = .str ("NaN".toList) ∧
    parseValue ("Infinity".toList) = .str ("Infinity".toList) := by
  refine ⟨?_, ?_, ?_, ?_, ?_, rfl, rfl, rfl⟩
  · constructor
    · intro h
      by_cases hnil : s = []
      · exact hnil
      · exfalso
        rw [parseValue, if_neg hnil] at h
        by_cases hg : numGrammar s = true
        · rw [if_pos hg] at h
          cases h
        · rw [if_neg hg] at h
          by_cases h1 : s.map toLowerCh = "true".toList
          · rw [if_pos h1] at h
            cases h
          · rw [if_neg h1] at h
            by_cases h2 : s.map toLowerCh = "false".toList
            · rw [if_pos h2] at h
              cases h
            · rw [if_neg h2] at h
              cases h
    · intro h
      rw [parseValue, if_pos h]
  · intro hnil hg
    rw [parseValue, if_neg hnil, if_pos hg]
  · intro hnil hg h1
    rw [parseValue, if_neg hnil, if_neg (by rw [hg]; intro h; cases h)]
    show (if s.map toLowerCh = "true".toList then Value.bool true else _) = _
    rw [if_pos h1]
  · intro hnil hg h1
    rw [parseValue, if_neg hnil, if_neg (by rw [hg]; intro h; cases h)]
    show (if s.map toLowerCh = "true".toList then Value.bool true else _) = _
    by_cases h0 : s.map toLowerCh = "true".toList
    · rw [h0] at h1
      cases h1
    · rw [if_neg h0, if_pos h1]
  · intro hnil hg h1 h2
    rw [parseValue, if_neg hnil, if_neg (by rw [hg]; intro h; cases h)]
    show (if s.map toLowerCh = "true".toList then Value.bool true else _) = _
    rw [if_neg h1, if_neg h2]

/-- Closed witness for `parseValue_coercion`: the boolean branch at
`"True"` and the string fallback at `"NaN"`. -/
theorem parseValue_coercion_witness :
    parseValue ("True".toList) = .bool true ∧
    parseValue ("NaN".toList) = .str ("NaN".toList) :=
  ⟨(parseValue_coercion ("True".toList)).2.2.1 (by decide) (by decide) (by decide),
   (parseValue_coercion ("NaN".toList)).2.2.2.2.1 (by decide) (by decide) (by decide)
      (by decide)⟩

/-- Counterexample to C6 as stated: `"5."` fails the claimed grammar
`-?digits(.digits)?` yet `parseValue` coerces it to the number `5`. -/
theorem parseValue_coercion_counterexample :
    parseValue ("5.".toList) = .num 5 ∧ specNumGrammar ("5.".toList) = false := by
  constructor
  · show Value.num (parseDecimal ("5.".toList)) = Value.num 5
    have h : parseDecimal ("5.".toList) =
        ((5 : Nat) : ℚ) + ((0 : Nat) : ℚ) / (10 : ℚ) ^ (0 : Nat) := rfl
    rw [h]
    norm_num
  · decide

/-! ## C9: storing null -/

/-- **C9** (amended).  `setItem(r, null)` stores an explicit entry rather
than removing the key: the call succeeds, `getItem` then returns `null`
(where an absent key returns `undefined`), and `size()` counts the key.
Only value-level projections render the stored null like an absent cell. -/
theorem null_storage (t : Table) (r : JsStr) (h : isValidCellReference r = true) :
    (A1.setItem t r .null).2 = none ∧
    objLookup (A1.setItem t r .null).1 r = some .null ∧
    A1.getItem (A1.setItem t r .null).1 r = .ok (some .null) ∧
    A1.size (A1.setItem t r .null).1 =
      (if r ∈ keysOf t then A1.size t else A1.size t + 1) := by
  rw [A1.setItem, if_pos h]
  refine ⟨rfl, objLookup_objSet_self t r .null, ?_, ?_⟩
  · rw [A1.getItem, if_pos h, objLookup_objSet_self]
  · show A1.size (objSet t r .null) = _
    rw [A1.size, A1.size, keysOf_objSet]
    by_cases hm : r ∈ keysOf t
    · rw [if_pos hm, if_pos hm]
    · rw [if_neg hm, if_neg hm, List.length_append]
      rfl

/-- Closed witness for `null_storage` at the empty table and `"A1"`. -/
theorem null_storage_witness :
    (A1.setItem [] ("A1".toList) .null).2 = none ∧
    objLookup (A1.setItem [] ("A1".toList) .null).1 ("A1".toList) = some .null ∧
    A1.getItem (A1.setItem [] ("A1".toList) .null).1 ("A1".toList) = .ok (some .null) ∧
    A1.size (A1.setItem [] ("A1".toList) .null).1 =
      (if ("A1".toList) ∈ keysOf ([] : Table) then A1.size ([] : Table)
       else A1.size ([] : Table) + 1) :=
  null_storage [] ("A1".toList) (by decide)

/-- Counterexample to C9 as stated: after `setItem("A1", null)` on an empty
table, `size()` is 1 and `getItem` returns `null`, whereas the table with no
entry at `A1` has `size()` 0 and `getItem` returns `undefined` — the two
states are observably different. -/
theorem null_storage_counterexample :
    A1.size (A1.setItem [] ("A1".toList) .null).1 = 1 ∧
    A1.size ([] : Table) = 0 ∧
    A1.getItem (A1.setItem [] ("A1".toList) .null).1 ("A1".toList) = .ok (some .null) ∧
    A1.getItem ([] : Table) ("A1".toList) = .ok none :=
  ⟨rfl, rfl, rfl, rfl⟩

/-- **C10** (confirmed).  When the constructor argument has a `"data"` key
it is read as the options form: the result is determined by the value of
`"data"` alone (every other key is ignored and never validated), and a falsy
`"data"` value yields the empty table — even when other keys are invalid
references. -/
theorem construct_options_form (entries : List (JsStr × Value)) (dv : Value)
    (h : objLookup entries ("data".toList) = some dv) :
    A1.construct (some entries) = A1.construct (some [(("data".toList), dv)]) ∧
    (truthyValue dv = false → A1.construct (some entries) = .ok []) := by
  have hmem : ("data".toList) ∈ keysOf entries := objLookup_mem_keys h
  have hsingle : objLookup [(("data".toList), dv)] ("data".toList) = some dv := by
    rw [objLookup_cons, if_pos rfl]
  have hmem2 : ("data".toList) ∈ keysOf [(("data".toList), dv)] := by
    rw [keysOf_cons]
    exact List.mem_cons_self _ _
  constructor
  · rw [A1.construct, A1.construct]
    simp only [if_pos hmem, if_pos hmem2, h, hsingle]
  · intro hfalsy
    rw [A1.construct]
    simp only [if_pos hmem, h]
    have hspread : A1.spreadData (some dv) = [] := by
      cases dv with
      | null => rfl
      | undef => rfl
      | bool b => rfl
      | num q => rfl
      | obj f =>
        simp [truthyValue] at hfalsy
      | str s =>
        cases s with
        | nil => rfl
        | cons c cs => simp [truthyValue] at hfalsy
    rw [hspread]
    rfl

/-- Closed witness for `construct_options_form`: a falsy `data` value next
to an invalid-reference key `"!!"` still constructs the empty table. -/
theorem construct_options_form_witness :
    A1.construct (some [(("data".toList), .null), (("!!".toList), .num 1)]) = .ok [] :=
  (construct_options_form [(("data".toList), .null), (("!!".toList), .num 1)]
    .null rfl).2 rfl

/-! ## C4: replace semantics of CSV import -/

/-- **C4** (amended).  `loadFromCSVString` has replace semantics whenever
the input parses to at least one row: the result is the same as loading
into a fresh empty table, so no previously stored key survives unless
the import re-creates it.  When the input parses to zero rows (empty or
all-blank text) the call returns before the `clear()`, leaving the table
untouched. -/
theorem loadFromCSVString_replace (t : Table) (s : JsStr) (o : A1.CSVImportOptions) :
    A1.loadFromCSVString t s o =
      (if parseCsvString s o.separator = [] then (t, none)
       else A1.loadFromCSVString [] s o) := by
  rw [A1.loadFromCSVString, A1.loadFromCSVString]
  by_cases h : parseCsvString s o.separator = []
  · simp only [if_pos h]
  · simp only [if_neg h]
    rfl

/-- Counterexample to C4 as stated: loading the empty CSV string into a
table holding `A1 ↦ 1` leaves the old key in place (the early return on
zero parsed rows happens before `clear()`), although the import itself
created no cell. -/
theorem loadFromCSVString_replace_counterexample :
    A1.loadFromCSVString [(("A1".toList), .num 1)] ([] : JsStr) A1.defaultImportOptions
      = ([(("A1".toList), .num 1)], none) ∧
    A1.size (A1.loadFromCSVString [(("A1".toList), .num 1)] ([] : JsStr)
      A1.defaultImportOptions).1 = 1 :=
  ⟨rfl, rfl⟩

/-! ## C3: batch-set atomicity -/

lemma objLookup_foldl_objSet_not_mem (m : List (JsStr × Value)) :
    ∀ (t : Table) (k : JsStr), k ∉ keysOf m →
    objLookup (m.foldl (fun acc kv => objSet acc kv.1 kv.2) t) k = objLookup t k := by
  induction m with
  | nil => intro t k _; rfl
  | cons kv rest ih =>
    intro t k hk
    rw [keysOf_cons] at hk
    have h1 : ¬ (k = kv.1 ∨ k ∈ keysOf rest) := fun hc => hk (List.mem_cons.2 hc)
    show objLookup (rest.foldl _ (objSet t kv.1 kv.2)) k = _
    rw [ih (objSet t kv.1 kv.2) k (fun hc => h1 (Or.inr hc)),
      objLookup_objSet_ne t k kv.1 kv.2 (fun hc => h1 (Or.inl hc.symm))]

lemma objLookup_foldl_objSet_mem (m : List (JsStr × Value)) :
    ∀ (t : Table) (k : JsStr) (v : Value), (keysOf m).Nodup → (k, v) ∈ m →
    objLookup (m.foldl (fun acc kv => objSet acc kv.1 kv.2) t) k = some v := by
  induction m with
  | nil => intro t k v _ hm; cases hm
  | cons kv rest ih =>
    intro t k v hnd hm
    rw [keysOf_cons, List.nodup_cons] at hnd
    rcases List.mem_cons.1 hm with h | h
    · cases h
      show objLookup (rest.foldl _ (objSet t k v)) k = some v
      rw [objLookup_foldl_objSet_not_mem rest (objSet t k v) k hnd.1,
        objLookup_objSet_self]
    · exact ih (objSet t kv.1 kv.2) k v hnd.2 h

/-- **C3** (confirmed).  `set` validates every key of the mapping before any
mutation: one invalid key raises the invalid-reference error with the table
unchanged; with all keys valid the call succeeds and every pair of the
mapping is written. -/
theorem set_atomicity (t : Table) (m : List (JsStr × Value)) :
    ((¬ ∀ k ∈ keysOf m, isValidCellReference k = true) →
      A1.set t m = (t, some .format)) ∧
    ((∀ k ∈ keysOf m, isValidCellReference k = true) →
      (A1.set t m).2 = none ∧
      ∀ k v, (keysOf m).Nodup → (k, v) ∈ m →
        objLookup (A1.set t m).1 k = some v) := by
  constructor
  · intro hbad
    rw [A1.set, if_neg (fun hall => hbad (List.all_eq_true.1 hall))]
  · intro hgood
    rw [A1.set, if_pos (List.all_eq_true.2 hgood)]
    exact ⟨rfl, fun k v hnd hm => objLookup_foldl_objSet_mem m t k v hnd hm⟩

/-- Closed witness for `set_atomicity`: an invalid key rejects the whole
batch with the table unchanged; a valid batch writes its pair. -/
theorem set_atomicity_witness :
    A1.set [(("B2".toList), .bool true)] [(("A1".toList), .num 1), (("bad".toList), .num 2)]
      = ([(("B2".toList), .bool true)], some .format) ∧
    (A1.set [] [(("A1".toList), .num 1)]).2 = none ∧
    objLookup (A1.set [] [(("A1".toList), .num 1)]).1 ("A1".toList) = some (.num 1) :=
  ⟨(set_atomicity [(("B2".toList), .bool true)]
      [(("A1".toList), .num 1), (("bad".toList), .num 2)]).1 (by decide),
   ((set_atomicity [] [(("A1".toList), .num 1)]).2 (by decide)).1,
   ((set_atomicity [] [(("A1".toList), .num 1)]).2 (by decide)).2
     ("A1".toList) (.num 1) (by decide) (List.mem_cons_self _ _)⟩

lemma tableValid_objSet {t : Table} {k : JsStr} {v : Value}
    (ht : tableValid t) (hk : isValidCellReference k = true) :
    tableValid (objSet t k v) := by
  intro x hx
  rw [keysOf_objSet] at hx
  by_cases hm : k ∈ keysOf t
  · rw [if_pos hm] at hx
    exact ht x hx
  · rw [if_neg hm] at hx
    rcases List.mem_append.1 hx with h | h
    · exact ht x h
    · rcases List.mem_singleton.1 h with rfl
      exact hk

lemma tableValid_foldl_objSet (m : List (JsStr × Value)) :
    ∀ t : Table, tableValid t → (∀ k ∈ keysOf m, isValidCellReference k = true) →
    tableValid (m.foldl (fun acc kv => objSet acc kv.1 kv.2) t) := by
  induction m with
  | nil => intro t ht _; exact ht
  | cons kv rest ih =>
    intro t ht hm
    show tableValid (rest.foldl _ (objSet t kv.1 kv.2))
    refine ih (objSet t kv.1 kv.2) ?_ ?_
    · exact tableValid_objSet ht (hm kv.1 (by rw [keysOf_cons]; exact List.mem_cons_self _ _))
    · intro k hk
      exact hm k (by rw [keysOf_cons]; exact List.mem_cons_of_mem _ hk)

lemma positionToCellReference_valid {r c : Int} {s : JsStr}
    (h : positionToCellReference ⟨r, c⟩ = .ok s) :
    isValidCellReference s = true := by
  rw [positionToCellReference_eq] at h
  by_cases hrc : r < 1 ∨ c < 1
  · rw [if_pos hrc] at h
    cases h
  · rw [if_neg hrc] at h
    cases h
    push_neg at hrc
    exact canonRef_valid r c (by omega) (by omega)

lemma tableValid_loadRow (fields : List JsStr) : ∀ (t : Table) (row col : Int),
    tableValid t → tableValid (A1.loadRow t row col fields).1 := by
  induction fields with
  | nil => intro t row col ht; exact ht
  | cons f rest ih =>
    intro t row col ht
    rw [A1.loadRow]
    cases henc : positionToCellReference ⟨row, col⟩ with
    | error e => exact ht
    | ok cellRef =>
      show tableValid (A1.loadRow (if A1.isNullValue (parseValue f) = true then t
        else objSet t cellRef (parseValue f)) row (col + 1) rest).1
      by_cases hn : A1.isNullValue (parseValue f) = true
      · rw [if_pos hn]
        exact ih t row (col + 1) ht
      · rw [if_neg hn]
        exact ih _ row (col + 1)
          (tableValid_objSet ht (positionToCellReference_valid henc))

lemma tableValid_loadRows (rows : List (List JsStr)) :
    ∀ (t : Table) (row startColNum : Int),
    tableValid t → tableValid (A1.loadRows t row startColNum rows).1 := by
  induction rows with
  | nil => intro t row sc ht; exact ht
  | cons r rest ih =>
    intro t row sc ht
    rw [A1.loadRows]
    cases hr : A1.loadRow t row sc r with
    | mk t' e =>
      have ht' : tableValid t' := by
        have := tableValid_loadRow r t row sc ht
        rw [hr] at this
        exact this
      cases e with
      | none => exact ih t' (row + 1) sc ht'
      | some e0 => exact ht'

lemma construct_tableValid_aux (d t : Table)
    (h : (match A1.validateCellReferences d with
          | some e => (Except.error e : Except JsError Table)
          | none => Except.ok d) = Except.ok t) : tableValid t := by
  cases hv : A1.validateCellReferences d with
  | some e =>
    rw [hv] at h
    cases h
  | none =>
    rw [hv] at h
    cases h
    rw [A1.validateCellReferences] at hv
    by_cases hall : (keysOf d).all isValidCellReference
    · exact fun k hk => (List.all_eq_true.1 hall) k hk
    · rw [if_neg hall] at hv
      cases hv

lemma construct_tableValid {init : Option (List (JsStr × Value))} {t : Table}
    (h : A1.construct init = .ok t) : tableValid t :=
  construct_tableValid_aux _ t h

/-- **C8** (confirmed).  After construction and any sequence of public
mutating operations (`set`, `setItem`, `removeItem`, `clear`,
`loadFromCSVString` with any options), every key in the table is a valid
cell reference — also at exit of a call that throws. -/
theorem key_validity_invariant (init : Option (List (JsStr × Value)))
    (t0 : Table) (ops : List Op) (h : A1.construct init = .ok t0) :
    tableValid (ops.foldl applyOp t0) := by
  have h0 : tableValid t0 := construct_tableValid h
  clear h
  induction ops generalizing t0 with
  | nil => exact h0
  | cons op rest ih =>
    rw [List.foldl_cons]
    refine ih (applyOp t0 op) ?_
    cases op with
    | set m =>
      show tableValid (A1.set t0 m).1
      rw [A1.set]
      by_cases hall : (keysOf m).all isValidCellReference
      · rw [if_pos hall]
        exact tableValid_foldl_objSet m t0 h0 (fun k hk => (List.all_eq_true.1 hall) k hk)
      · rw [if_neg hall]
        exact h0
    | setItem k v =>
      show tableValid (A1.setItem t0 k v).1
      rw [A1.setItem]
      by_cases hk : isValidCellReference k = true
      · rw [if_pos hk]
        exact tableValid_objSet h0 hk
      · rw [if_neg hk]
        exact h0
    | removeItem k =>
      show tableValid (A1.removeItem t0 k).1
      rw [A1.removeItem]
      by_cases hk : isValidCellReference k = true
      · rw [if_pos hk]
        exact fun x hx => h0 x (keysOf_objDelete_sub t0 k x hx)
      · rw [if_neg hk]
        exact h0
    | clear =>
      intro k hk
      cases hk
    | load s o =>
      show tableValid (A1.loadFromCSVString t0 s o).1
      rw [A1.loadFromCSVString]
      by_cases hrows : parseCsvString s o.separator = []
      · rw [if_pos hrows]
        exact h0
      · rw [if_neg hrows]
        refine tableValid_loadRows _ (A1.clear t0) o.startRow
          (columnLetterToNumber o.startColumn) ?_
        intro k hk
        cases hk

/-- Closed witness for `key_validity_invariant`: a concrete construction
followed by a `setItem` and a CSV load; the invariant yields validity of a
stored key. -/
theorem key_validity_invariant_witness :
    isValidCellReference ("B2".toList) = true :=
  key_validity_invariant (some [(("A1".toList), .num 1)]) [(("A1".toList), .num 1)]
    [Op.setItem ("B2".toList) (.bool true)] rfl ("B2".toList) (by decide)

/-! ## C2 groundwork: fold min/max, integer ranges -/

lemma foldl_min_le_init (l : List Int) : ∀ a : Int, l.foldl min a ≤ a := by
  induction l with
  | nil => intro a; simp
  | cons x xs ih =>
    intro a
    calc xs.foldl min (min a x) ≤ min a x := ih (min a x)
      _ ≤ a := min_le_left _ _

lemma foldl_min_le_mem (l : List Int) : ∀ (a x : Int), x ∈ l → l.foldl min a ≤ x := by
  induction l with
  | nil => intro a x hx; cases hx
  | cons y ys ih =>
    intro a x hx
    rcases List.mem_cons.1 hx with h | h
    · subst h
      calc ys.foldl min (min a x) ≤ min a x := foldl_min_le_init ys _
        _ ≤ x := min_le_right _ _
    · exact ih (min a y) x h

lemma foldl_min_mem (l : List Int) : ∀ a : Int, l.foldl min a = a ∨ l.foldl min a ∈ l := by
  induction l with
  | nil => intro a; exact Or.inl rfl
  | cons y ys ih =>
    intro a
    rcases ih (min a y) with h | h
    · rcases min_cases a y with ⟨hm, _⟩ | ⟨hm, _⟩
      · rw [List.foldl_cons, h, hm]
        exact Or.inl rfl
      · rw [List.foldl_cons, h, hm]
        exact Or.inr (List.mem_cons_self _ _)
    · exact Or.inr (List.mem_cons_of_mem _ h)

lemma init_le_foldl_max (l : List Int) : ∀ a : Int, a ≤ l.foldl max a := by
  induction l with
  | nil => intro a; simp
  | cons x xs ih =>
    intro a
    calc a ≤ max a x := le_max_left _ _
      _ ≤ xs.foldl max (max a x) := ih (max a x)

lemma mem_le_foldl_max (l : List Int) : ∀ (a x : Int), x ∈ l → x ≤ l.foldl max a := by
  induction l with
  | nil => intro a x hx; cases hx
  | cons y ys ih =>
    intro a x hx
    rcases List.mem_cons.1 hx with h | h
    · subst h
      calc x ≤ max a x := le_max_right _ _
        _ ≤ ys.foldl max (max a x) := init_le_foldl_max ys _
    · exact ih (max a y) x h

lemma foldl_max_mem (l : List Int) : ∀ a : Int, l.foldl max a = a ∨ l.foldl max a ∈ l := by
  induction l with
  | nil => intro a; exact Or.inl rfl
  | cons y ys ih =>
    intro a
    rcases ih (max a y) with h | h
    · rcases max_cases a y with ⟨hm, _⟩ | ⟨hm, _⟩
      · rw [List.foldl_cons, h, hm]
        exact Or.inl rfl
      · rw [List.foldl_cons, h, hm]
        exact Or.inr (List.mem_cons_self _ _)
    · exact Or.inr (List.mem_cons_of_mem _ h)

lemma listMinI_le {l : List Int} {x : Int} (h : x ∈ l) : A1.listMinI l ≤ x := by
  cases l with
  | nil => cases h
  | cons y ys =>
    rcases List.mem_cons.1 h with h | h
    · subst h
      exact foldl_min_le_init ys x
    · exact foldl_min_le_mem ys y x h

lemma le_listMaxI {l : List Int} {x : Int} (h : x ∈ l) : x ≤ A1.listMaxI l := by
  cases l with
  | nil => cases h
  | cons y ys =>
    rcases List.mem_cons.1 h with h | h
    · subst h
      exact init_le_foldl_max ys x
    · exact mem_le_foldl_max ys y x h

lemma listMinI_mem {l : List Int} (h : l ≠ []) : A1.listMinI l ∈ l := by
  cases l with
  | nil => exact absurd rfl h
  | cons y ys =>
    rcases foldl_min_mem ys y with h | h
    · rw [A1.listMinI, h]
      exact List.mem_cons_self _ _
    · exact List.mem_cons_of_mem _ h

lemma listMaxI_mem {l : List Int} (h : l ≠ []) : A1.listMaxI l ∈ l := by
  cases l with
  | nil => exact absurd rfl h
  | cons y ys =>
    rcases foldl_max_mem ys y with h | h
    · rw [A1.listMaxI, h]
      exact List.mem_cons_self _ _
    · exact List.mem_cons_of_mem _ h

lemma range_map_eq_colSeq : ∀ (n : Nat) (lo : Int),
    (List.range n).map (fun i : Nat => lo + (i : Int)) = colSeq lo n := by
  intro n
  induction n with
  | zero => intro lo; rfl
  | succ m ih =>
    intro lo
    rw [List.range_succ_eq_map, colSeq, List.map_cons, List.map_map]
    congr 1
    · simp
    · rw [← ih (lo + 1)]
      apply List.map_congr_left
      intro i _
      simp only [Function.comp_apply]
      push_cast
      ring

lemma intRange_eq_colSeq (lo hi : Int) :
    A1.intRange lo hi = colSeq lo (hi - lo + 1).toNat := by
  rw [A1.intRange, range_map_eq_colSeq]

lemma mem_colSeq : ∀ (n : Nat) (lo x : Int),
    x ∈ colSeq lo n ↔ lo ≤ x ∧ x < lo + n := by
  intro n
  induction n with
  | zero =>
    intro lo x
    constructor
    · intro h
      cases h
    · intro h
      push_cast at h
      omega
  | succ m ih =>
    intro lo x
    rw [colSeq]
    simp only [List.mem_cons, ih (lo + 1) x]
    constructor
    · rintro (h | ⟨h1, h2⟩)
      · subst h
        constructor <;> omega
      · push_cast
        constructor <;> omega
    · rintro ⟨h1, h2⟩
      by_cases hx : x = lo
      · exact Or.inl hx
      · right
        push_cast at h2
        constructor <;> omega

lemma colSeq_nodup : ∀ (n : Nat) (lo : Int), (colSeq lo n).Nodup := by
  intro n
  induction n with
  | zero => intro lo; exact List.nodup_nil
  | succ m ih =>
    intro lo
    rw [colSeq, List.nodup_cons]
    refine ⟨?_, ih (lo + 1)⟩
    rw [mem_colSeq]
    omega

lemma colSeq_ne_nil {n : Nat} (h : 0 < n) (lo : Int) : colSeq lo n ≠ [] := by
  cases n with
  | zero => omega
  | succ m => simp [colSeq]

lemma ne_of_toNat_ne {c d : Char} (h : c.toNat ≠ d.toNat) : c ≠ d :=
  fun hc => h (congrArg Char.toNat hc)

lemma goodValue_ne_null {v : Value} (h : goodValue v) : v ≠ .null := by
  intro hc
  subst hc
  exact h

lemma goodValue_ne_undef {v : Value} (h : goodValue v) : v ≠ .undef := by
  intro hc
  subst hc
  exact h

lemma goodValue_not_nullValue {v : Value} (h : goodValue v) :
    A1.isNullValue v = false := by
  cases v with
  | null => exact absurd h (fun hc => hc)
  | undef => rfl
  | bool b => rfl
  | num q => rfl
  | str s => rfl
  | obj f => exact absurd h (fun hc => hc)

lemma goodValue_chars {v : Value} (h : goodValue v) :
    ∀ c ∈ jsString v, c ≠ ',' ∧ c ≠ '"' ∧ c ≠ '\n' ∧ c ≠ '\r' := by
  cases v with
  | null => exact absurd h (fun hc => hc)
  | undef => exact absurd h (fun hc => hc)
  | obj f => exact absurd h (fun hc => hc)
  | str s => exact h.2.1
  | bool b =>
    cases b with
    | false =>
      have hall : ∀ c ∈ ("false".toList : JsStr),
          c ≠ ',' ∧ c ≠ '"' ∧ c ≠ '\n' ∧ c ≠ '\r' := by decide
      exact hall
    | true =>
      have hall : ∀ c ∈ ("true".toList : JsStr),
          c ≠ ',' ∧ c ≠ '"' ∧ c ≠ '\n' ∧ c ≠ '\r' := by decide
      exact hall
  | num q =>
    intro c hc
    obtain ⟨_, hchars, _, _⟩ := renderNum_spec q h
    rcases hchars c hc with hd | hdot | hminus
    · have h48 : 48 ≤ c.toNat ∧ c.toNat ≤ 57 := by
        simpa [isDigitCh, Bool.and_eq_true, decide_eq_true_eq] using hd
      have e1 : (',' : Char).toNat = 44 := rfl
      have e2 : ('"' : Char).toNat = 34 := rfl
      have e3 : ('\n' : Char).toNat = 10 := rfl
      have e4 : ('\r' : Char).toNat = 13 := rfl
      exact ⟨ne_of_toNat_ne (by rw [e1]; omega), ne_of_toNat_ne (by rw [e2]; omega),
        ne_of_toNat_ne (by rw [e3]; omega), ne_of_toNat_ne (by rw [e4]; omega)⟩
    · subst hdot
      exact ⟨by decide, by decide, by decide, by decide⟩
    · subst hminus
      exact ⟨by decide, by decide, by decide, by decide⟩

lemma digit_not_ws {c : Char} (h : isDigitCh c = true) : isJsWs c = false := by
  simp only [isDigitCh, Bool.and_eq_true, decide_eq_true_eq] at h
  simp only [isJsWs, Bool.or_eq_false_iff, beq_eq_false_iff_ne]
  have e1 : (' ' : Char).toNat = 32 := rfl
  have e2 : ('\t' : Char).toNat = 9 := rfl
  have e3 : ('\n' : Char).toNat = 10 := rfl
  have e4 : ('\r' : Char).toNat = 13 := rfl
  have e5 : ('\x0B' : Char).toNat = 11 := rfl
  have e6 : ('\x0C' : Char).toNat = 12 := rfl
  refine ⟨⟨⟨⟨⟨?_, ?_⟩, ?_⟩, ?_⟩, ?_⟩, ?_⟩
  · exact ne_of_toNat_ne (by rw [e1]; omega)
  · exact ne_of_toNat_ne (by rw [e2]; omega)
  · exact ne_of_toNat_ne (by rw [e3]; omega)
  · exact ne_of_toNat_ne (by rw [e4]; omega)
  · exact ne_of_toNat_ne (by rw [e5]; omega)
  · exact ne_of_toNat_ne (by rw [e6]; omega)

lemma goodValue_nonws {v : Value} (h : goodValue v) :
    ∃ c ∈ jsString v, isJsWs c = false := by
  cases v with
  | null => exact absurd h (fun hc => hc)
  | undef => exact absurd h (fun hc => hc)
  | obj f => exact absurd h (fun hc => hc)
  | str s => exact h.2.2.2.2.2
  | bool b =>
    cases b with
    | false => exact ⟨'f', by decide, by decide⟩
    | true => exact ⟨'t', by decide, by decide⟩
  | num q =>
    obtain ⟨_, _, ⟨c, hc, hcd⟩, _⟩ := renderNum_spec q h
    exact ⟨c, hc, digit_not_ws hcd⟩

lemma goodValue_escape {v : Value} (h : goodValue v) :
    escapeCsvValue v = jsString v := by
  have hspec : hasCsvSpecial (jsString v) = false := by
    rw [hasCsvSpecial, List.any_eq_false]
    intro c hc
    obtain ⟨h1, h2, h3, h4⟩ := goodValue_chars h c hc
    simp only [Bool.or_eq_true, beq_iff_eq, not_or]
    exact ⟨⟨⟨h1, h2⟩, h3⟩, h4⟩
  have hcond : ¬ hasCsvSpecial (jsString v) = true := by
    rw [hspec]
    decide
  rw [escapeCsvValue_of_ne v (goodValue_ne_null h) (goodValue_ne_undef h), if_neg hcond]

lemma goodValue_roundtrip {v : Value} (h : goodValue v) :
    parseValue (jsString v) = v := by
  cases v with
  | null => exact absurd h (fun hc => hc)
  | undef => exact absurd h (fun hc => hc)
  | obj f => exact absurd h (fun hc => hc)
  | num q => exact (renderNum_spec q h).1
  | bool b =>
    cases b with
    | false => rfl
    | true => rfl
  | str s =>
    obtain ⟨h1, _, h3, h4, h5, _⟩ := h
    show parseValue s = Value.str s
    rw [parseValue, if_neg h1, if_neg (by rw [h3]; intro hc; cases hc)]
    show (if s.map toLowerCh = "true".toList then Value.bool true else _) = _
    rw [if_neg h4, if_neg h5]

/-! ## C2 groundwork: tokenizer and line-split identities -/

lemma intercalate_singleton' (sep : Char) (a : JsStr) :
    List.intercalate [sep] [a] = a := by
  simp [List.intercalate]

lemma intercalate_cons' (sep : Char) (a b : JsStr) (l : List JsStr) :
    List.intercalate [sep] (a :: b :: l) = a ++ sep :: List.intercalate [sep] (b :: l) := by
  simp [List.intercalate, List.intersperse]

lemma mem_intercalate' (sep : Char) :
    ∀ (ls : List JsStr) (l : JsStr), l ∈ ls → ∀ c ∈ l, c ∈ List.intercalate [sep] ls := by
  intro ls
  induction ls with
  | nil => intro l hl; cases hl
  | cons a rest ih =>
    intro l hl c hc
    cases rest with
    | nil =>
      rcases List.mem_cons.1 hl with h | h
      · subst h
        rw [intercalate_singleton']
        exact hc
      · cases h
    | cons b rest2 =>
      rw [intercalate_cons']
      rcases List.mem_cons.1 hl with h | h
      · subst h
        exact List.mem_append.2 (Or.inl hc)
      · exact List.mem_append.2 (Or.inr (List.mem_cons_of_mem _ (ih l h c hc)))

lemma parseCsvLineAux_cons_other (sep c : Char) (hq : c ≠ '"') (s : JsStr)
    (inQ : Bool) (cur : JsStr) :
    parseCsvLineAux sep (c :: s) inQ cur =
      if c = sep ∧ inQ = false then cur :: parseCsvLineAux sep s inQ []
      else parseCsvLineAux sep s inQ (cur ++ [c]) :=
  parseCsvLineAux.eq_5 sep inQ cur c s (fun _ hc _ _ => hq hc) (fun hc _ => hq hc)
    (fun hc _ => hq hc)

lemma parseCsvLineAux_lastField (sep : Char) :
    ∀ (f : JsStr), (∀ c ∈ f, c ≠ sep ∧ c ≠ '"') → ∀ cur,
    parseCsvLineAux sep f false cur = [cur ++ f] := by
  intro f
  induction f with
  | nil =>
    intro _ cur
    rw [parseCsvLineAux.eq_1, List.append_nil]
  | cons c f ih =>
    intro hf cur
    obtain ⟨hsep, hq⟩ := hf c (List.mem_cons_self _ _)
    rw [parseCsvLineAux_cons_other sep c hq f false cur,
      if_neg (by rintro ⟨h, _⟩; exact hsep h)]
    rw [ih (fun d hd => hf d (List.mem_cons_of_mem _ hd)) (cur ++ [c])]
    simp

lemma parseCsvLineAux_sepSplit (sep : Char) (hsq : sep ≠ '"') :
    ∀ (f : JsStr), (∀ c ∈ f, c ≠ sep ∧ c ≠ '"') → ∀ (rest cur : JsStr),
    parseCsvLineAux sep (f ++ sep :: rest) false cur =
      (cur ++ f) :: parseCsvLineAux sep rest false [] := by
  intro f
  induction f with
  | nil =>
    intro _ rest cur
    rw [List.nil_append, parseCsvLineAux_cons_other sep sep hsq rest false cur,
      if_pos ⟨rfl, rfl⟩, List.append_nil]
  | cons c f ih =>
    intro hf rest cur
    obtain ⟨hsep, hq⟩ := hf c (List.mem_cons_self _ _)
    rw [List.cons_append, parseCsvLineAux_cons_other sep c hq _ false cur,
      if_neg (by rintro ⟨h, _⟩; exact hsep h)]
    rw [ih (fun d hd => hf d (List.mem_cons_of_mem _ hd)) rest (cur ++ [c])]
    simp

/-- Tokenizing a separator-joined line of separator-free, quote-free fields
recovers the fields. -/
lemma parseCsvLine_intercalate (sep : Char) (hsq : sep ≠ '"') :
    ∀ (fields : List JsStr), fields ≠ [] →
    (∀ f ∈ fields, ∀ c ∈ f, c ≠ sep ∧ c ≠ '"') →
    parseCsvLine (List.intercalate [sep] fields) sep = fields := by
  intro fields
  induction fields with
  | nil => intro h; exact absurd rfl h
  | cons f rest ih =>
    intro _ hf
    cases rest with
    | nil =>
      rw [intercalate_singleton', parseCsvLine,
        parseCsvLineAux_lastField sep f (hf f (List.mem_cons_self _ _)) []]
      rfl
    | cons g rest2 =>
      rw [intercalate_cons', parseCsvLine,
        parseCsvLineAux_sepSplit sep hsq f (hf f (List.mem_cons_self _ _)) _ []]
      rw [List.nil_append]
      have := ih (by simp) (fun x hx => hf x (List.mem_cons_of_mem _ hx))
      rw [parseCsvLine] at this
      rw [this]

lemma splitCRLF_cons_other (c : Char) (h1 : c ≠ '\r') (h2 : c ≠ '\n') (rest : JsStr) :
    splitLinesCRLF (c :: rest) =
      match splitLinesCRLF rest with
      | [] => [[c]]
      | l :: ls => (c :: l) :: ls :=
  splitLinesCRLF.eq_4 c rest (fun _ hc _ => h1 hc) (fun hc => h2 hc)

lemma splitCRLF_cr_noLf (rest : JsStr) (h : ∀ r2 : JsStr, rest ≠ '\n' :: r2) :
    splitLinesCRLF ('\r' :: rest) =
      match splitLinesCRLF rest with
      | [] => [['\r']]
      | l :: ls => ('\r' :: l) :: ls :=
  splitLinesCRLF.eq_4 '\r' rest (fun r2 _ hr => h r2 hr)
    (fun hc => absurd hc (by decide))

/-- A line without `\n` or `\r` splits to itself alone. -/
lemma splitCRLF_no_newline : ∀ l : JsStr, (∀ c ∈ l, c ≠ '\n' ∧ c ≠ '\r') →
    splitLinesCRLF l = [l] := by
  intro l
  induction l with
  | nil => intro _; rfl
  | cons c rest ih =>
    intro hl
    obtain ⟨h2, h1⟩ := hl c (List.mem_cons_self _ _)
    rw [splitCRLF_cons_other c h1 h2 rest,
      ih (fun d hd => hl d (List.mem_cons_of_mem _ hd))]

/-- Splitting a newline-free line glued by `\n` to a remainder peels off the
line. -/
lemma splitCRLF_append : ∀ (l : JsStr), (∀ c ∈ l, c ≠ '\n' ∧ c ≠ '\r') →
    ∀ rest : JsStr, splitLinesCRLF (l ++ '\n' :: rest) = l :: splitLinesCRLF rest := by
  intro l
  induction l with
  | nil =>
    intro _ rest
    rw [List.nil_append, splitLinesCRLF.eq_3]
  | cons c l ih =>
    intro hl rest
    obtain ⟨h2, h1⟩ := hl c (List.mem_cons_self _ _)
    rw [List.cons_append, splitCRLF_cons_other c h1 h2 _,
      ih (fun d hd => hl d (List.mem_cons_of_mem _ hd)) rest]

/-- Splitting the `\n`-joined concatenation of newline-free lines recovers
the lines. -/
lemma splitCRLF_intercalate : ∀ (lines : List JsStr), lines ≠ [] →
    (∀ l ∈ lines, ∀ c ∈ l, c ≠ '\n' ∧ c ≠ '\r') →
    splitLinesCRLF (List.intercalate ['\n'] lines) = lines := by
  intro lines
  induction lines with
  | nil => intro h; exact absurd rfl h
  | cons a rest ih =>
    intro _ hl
    cases rest with
    | nil =>
      rw [intercalate_singleton']
      exact splitCRLF_no_newline a (hl a (List.mem_cons_self _ _))
    | cons b rest2 =>
      rw [intercalate_cons',
        splitCRLF_append a (hl a (List.mem_cons_self _ _)) _,
        ih (by simp) (fun x hx => hl x (List.mem_cons_of_mem _ hx))]

/-- `trim` gives the empty string exactly on all-whitespace input. -/
lemma trimJs_eq_nil_iff (l : JsStr) :
    trimJs l = [] ↔ ∀ c ∈ l, isJsWs c = true := by
  rw [trimJs, List.reverse_eq_nil_iff, List.dropWhile_eq_nil_iff]
  constructor
  · intro h c hc
    have hsplit := List.takeWhile_append_dropWhile (p := isJsWs) (l := l)
    rw [← hsplit] at hc
    rcases List.mem_append.1 hc with hm | hm
    · exact List.mem_takeWhile_imp hm
    · exact h c (List.mem_reverse.2 hm)
  · intro h c hc
    have hc' : c ∈ List.dropWhile isJsWs l := List.mem_reverse.1 hc
    have : c ∈ l := by
      have hsplit := List.takeWhile_append_dropWhile (p := isJsWs) (l := l)
      rw [← hsplit]
      exact List.mem_append.2 (Or.inr hc')
    exact h c this

/-! ## C2 groundwork: characterizing the import loops -/

lemma canonRef_inj {r c r' c' : Int} (hr : 1 ≤ r) (hc : 1 ≤ c) (hr' : 1 ≤ r')
    (hc' : 1 ≤ c') (h : canonRef r c = canonRef r' c') : r = r' ∧ c = c' := by
  have h1 := parseCellReference_canonRef r c hr hc
  have h2 := parseCellReference_canonRef r' c' hr' hc'
  rw [h, h2] at h1
  cases h1
  exact ⟨rfl, rfl⟩

lemma objSet_append {t : Table} {k : JsStr} (v : Value) (h : k ∉ keysOf t) :
    objSet t k v = t ++ [(k, v)] := by
  induction t with
  | nil => rfl
  | cons kv rest ih =>
    obtain ⟨k0, v0⟩ := kv
    rw [keysOf_cons] at h
    have h1 : ¬ (k = k0 ∨ k ∈ keysOf rest) := fun hc => h (List.mem_cons.2 hc)
    rw [objSet_cons, if_neg (fun hc => h1 (Or.inl hc.symm)), List.cons_append,
      ih (fun hc => h1 (Or.inr hc))]

lemma keys_rowEntries : ∀ (fields : List JsStr) (row col : Int),
    ∀ k ∈ keysOf (rowEntries row col fields), ∃ cc : Int, col ≤ cc ∧ k = canonRef row cc := by
  intro fields
  induction fields with
  | nil => intro row col k hk; cases hk
  | cons f rest ih =>
    intro row col k hk
    rw [rowEntries] at hk
    by_cases hn : A1.isNullValue (parseValue f) = true
    · rw [if_pos hn, List.nil_append] at hk
      obtain ⟨cc, h1, h2⟩ := ih row (col + 1) k hk
      exact ⟨cc, by omega, h2⟩
    · rw [if_neg hn] at hk
      have hk' : k ∈ keysOf ((canonRef row col, parseValue f) :: rowEntries row (col + 1) rest) := hk
      rw [keysOf_cons] at hk'
      rcases List.mem_cons.1 hk' with h | h
      · exact ⟨col, le_rfl, h⟩
      · obtain ⟨cc, h1, h2⟩ := ih row (col + 1) k h
        exact ⟨cc, by omega, h2⟩

lemma loadRow_eq_append : ∀ (fields : List JsStr) (t : Table) (row col : Int),
    1 ≤ row → 1 ≤ col →
    (∀ c' : Int, col ≤ c' → canonRef row c' ∉ keysOf t) →
    A1.loadRow t row col fields = (t ++ rowEntries row col fields, none) := by
  intro fields
  induction fields with
  | nil =>
    intro t row col _ _ _
    rw [A1.loadRow, rowEntries, List.append_nil]
  | cons f rest ih =>
    intro t row col hrow hcol hfresh
    have henc : positionToCellReference ⟨row, col⟩ = .ok (canonRef row col) := by
      rw [positionToCellReference_eq, if_neg (by omega)]
    rw [A1.loadRow, henc]
    show A1.loadRow (if A1.isNullValue (parseValue f) = true then t
      else objSet t (canonRef row col) (parseValue f)) row (col + 1) rest = _
    by_cases hn : A1.isNullValue (parseValue f) = true
    · rw [if_pos hn, rowEntries, if_pos hn, List.nil_append]
      exact ih t row (col + 1) hrow (by omega) (fun c' hc' => hfresh c' (by omega))
    · rw [if_neg hn, rowEntries, if_neg hn]
      rw [objSet_append (parseValue f) (hfresh col le_rfl)]
      rw [ih (t ++ [(canonRef row col, parseValue f)]) row (col + 1) hrow (by omega) ?fresh]
      · rw [List.append_assoc]
      case fresh =>
        intro c' hc' hmem
        rw [keysOf] at hmem
        rw [List.map_append, List.mem_append] at hmem
        rcases hmem with h | h
        · exact hfresh c' (by omega) h
        · simp only [List.map_cons, List.map_nil, List.mem_singleton] at h
          have := canonRef_inj hrow (by omega : (1:Int) ≤ c') hrow (by omega) h
          omega

lemma loadRows_eq : ∀ (rows : List (List JsStr)) (t : Table) (row : Int),
    1 ≤ row →
    (∀ k ∈ keysOf t, ∀ rr cc : Int, 1 ≤ rr → 1 ≤ cc → k = canonRef rr cc → rr < row) →
    A1.loadRows t row 1 rows = (t ++ rowsEntries row 1 rows, none) := by
  intro rows
  induction rows with
  | nil =>
    intro t row _ _
    rw [A1.loadRows, rowsEntries, List.append_nil]
  | cons r rest ih =>
    intro t row hrow hbound
    have hfresh : ∀ c' : Int, 1 ≤ c' → canonRef row c' ∉ keysOf t := by
      intro c' hc' hmem
      have := hbound _ hmem row c' hrow hc' rfl
      omega
    have hrow' := loadRow_eq_append r t row 1 hrow le_rfl (fun c' hc' => hfresh c' hc')
    rw [A1.loadRows, hrow']
    show A1.loadRows (t ++ rowEntries row 1 r) (row + 1) 1 rest = _
    have hbound' : ∀ k ∈ keysOf (t ++ rowEntries row 1 r), ∀ rr cc : Int,
        1 ≤ rr → 1 ≤ cc → k = canonRef rr cc → rr < row + 1 := by
      intro k hk rr cc hrr hcc hkc
      rw [keysOf, List.map_append, List.mem_append] at hk
      rcases hk with h | h
      · have := hbound k h rr cc hrr hcc hkc
        omega
      · obtain ⟨cc', h1, h2⟩ := keys_rowEntries r row 1 k h
        subst hkc
        have := canonRef_inj hrr hcc hrow (by omega) h2
        omega
    rw [ih (t ++ rowEntries row 1 r) (row + 1) (by omega) hbound']
    rw [rowsEntries, List.append_assoc]

lemma csvLine_eq_fieldFor (t : Table) (sep : Char) (startCol maxCol row : Int) :
    A1.csvLine t sep startCol maxCol row =
      List.intercalate [sep] ((A1.intRange startCol maxCol).map (fieldFor t row)) := rfl

lemma rowEntries_map_fieldFor (t : Table) (hvals : ∀ kv ∈ t, goodValue kv.2) (r : Int) :
    ∀ (n : Nat) (colStart : Int),
    rowEntries r colStart ((colSeq colStart n).map (fieldFor t r)) =
      rowChunk t r colStart n := by
  intro n
  induction n with
  | zero => intro colStart; rfl
  | succ k ih =>
    intro colStart
    rw [colSeq, List.map_cons, rowEntries, rowChunk, colSeq, List.filterMap_cons]
    cases hlook : objLookup t (canonRef r colStart) with
    | none =>
      have hf : fieldFor t r colStart = [] := by
        rw [fieldFor, hlook]
        rfl
      rw [hf]
      have hnull : A1.isNullValue (parseValue []) = true := rfl
      rw [if_pos hnull, List.nil_append, cellEntry, hlook]
      exact ih (colStart + 1)
    | some v =>
      have hv : goodValue v := hvals _ (mem_of_objLookup_some hlook)
      have hf : fieldFor t r colStart = jsString v := by
        rw [fieldFor, hlook]
        exact goodValue_escape hv
      rw [hf, goodValue_roundtrip hv, if_neg (by rw [goodValue_not_nullValue hv]; intro hc; cases hc)]
      rw [cellEntry, hlook]
      rw [ih (colStart + 1)]
      rfl

lemma rowsEntries_map_fieldFor (t : Table) (hvals : ∀ kv ∈ t, goodValue kv.2) (n : Nat) :
    ∀ (m : Nat) (rowStart : Int),
    rowsEntries rowStart 1 ((colSeq rowStart m).map (fun r =>
      (colSeq 1 n).map (fieldFor t r))) = gridChunk t rowStart m n := by
  intro m
  induction m with
  | zero => intro rowStart; rfl
  | succ k ih =>
    intro rowStart
    rw [colSeq, List.map_cons, rowsEntries, gridChunk, colSeq, List.flatMap_cons]
    rw [rowEntries_map_fieldFor t hvals rowStart n 1, ih (rowStart + 1)]
    rfl

lemma keys_rowChunk_sub (t : Table) (r : Int) :
    ∀ (n : Nat) (colStart : Int) (k : JsStr), k ∈ keysOf (rowChunk t r colStart n) →
    ∃ cc : Int, colStart ≤ cc ∧ cc < colStart + n ∧ k = canonRef r cc ∧
      ∃ v, objLookup t k = some v := by
  intro n
  induction n with
  | zero => intro colStart k hk; cases hk
  | succ m ih =>
    intro colStart k hk
    rw [rowChunk, colSeq, List.filterMap_cons] at hk
    cases hlook : objLookup t (canonRef r colStart) with
    | none =>
      rw [cellEntry, hlook] at hk
      obtain ⟨cc, h1, h2, h3, h4⟩ := ih (colStart + 1) k hk
      push_cast at h2 ⊢
      exact ⟨cc, by omega, by omega, h3, h4⟩
    | some v =>
      rw [cellEntry, hlook] at hk
      rw [keysOf_cons] at hk
      rcases List.mem_cons.1 hk with h | h
      · subst h
        refine ⟨colStart, le_rfl, by push_cast; omega, rfl, v, hlook⟩
      · obtain ⟨cc, h1, h2, h3, h4⟩ := ih (colStart + 1) k h
        push_cast at h2 ⊢
        exact ⟨cc, by omega, by omega, h3, h4⟩

lemma keys_gridChunk_sub (t : Table) (n : Nat) :
    ∀ (m : Nat) (rowStart : Int) (k : JsStr), k ∈ keysOf (gridChunk t rowStart m n) →
    ∃ v, objLookup t k = some v := by
  intro m
  induction m with
  | zero => intro rowStart k hk; cases hk
  | succ p ih =>
    intro rowStart k hk
    rw [gridChunk, colSeq, List.flatMap_cons] at hk
    rw [keysOf, List.map_append, List.mem_append] at hk
    rcases hk with h | h
    · obtain ⟨_, _, _, _, hv⟩ := keys_rowChunk_sub t rowStart n 1 k h
      exact hv
    · exact ih (rowStart + 1) k h

lemma objLookup_append (A B : Table) (ref : JsStr) :
    objLookup (A ++ B) ref =
      match objLookup A ref with
      | some v => some v
      | none => objLookup B ref := by
  induction A with
  | nil => rfl
  | cons kv rest ih =>
    obtain ⟨k0, v0⟩ := kv
    rw [List.cons_append, objLookup_cons, objLookup_cons]
    by_cases h0 : k0 = ref
    · rw [if_pos h0, if_pos h0]
    · rw [if_neg h0, if_neg h0]
      exact ih

lemma lookup_rowChunk_hit (t : Table) (r0 c0 : Int) (v : Value)
    (hlook : objLookup t (canonRef r0 c0) = some v) (hr : 1 ≤ r0) (hc : 1 ≤ c0) :
    ∀ (n : Nat) (colStart : Int), 1 ≤ colStart → colStart ≤ c0 → c0 < colStart + n →
    objLookup (rowChunk t r0 colStart n) (canonRef r0 c0) = some v := by
  intro n
  induction n with
  | zero => intro colStart _ _ h; omega
  | succ m ih =>
    intro colStart h1 h2 h3
    rw [rowChunk, colSeq, List.filterMap_cons]
    by_cases heq : colStart = c0
    · subst heq
      rw [cellEntry, hlook, objLookup_cons, if_pos rfl]
    · cases hlc : objLookup t (canonRef r0 colStart) with
      | none =>
        rw [cellEntry, hlc]
        exact ih (colStart + 1) (by omega) (by omega) (by push_cast at h3 ⊢; omega)
      | some w =>
        rw [cellEntry, hlc, objLookup_cons, if_neg ?hne]
        · exact ih (colStart + 1) (by omega) (by omega) (by push_cast at h3 ⊢; omega)
        case hne =>
          intro hcontra
          have := canonRef_inj hr (by omega) hr hc hcontra
          omega

lemma lookup_rowChunk_miss (t : Table) (r0 : Int) (ref : JsStr) (_hr : 1 ≤ r0) :
    ∀ (n : Nat) (colStart : Int), 1 ≤ colStart →
    (∀ c0 : Int, colStart ≤ c0 → c0 < colStart + n → ref ≠ canonRef r0 c0) →
    objLookup (rowChunk t r0 colStart n) ref = none := by
  intro n
  induction n with
  | zero => intro colStart _ _; rfl
  | succ m ih =>
    intro colStart h1 hne
    rw [rowChunk, colSeq, List.filterMap_cons]
    cases hlc : objLookup t (canonRef r0 colStart) with
    | none =>
      rw [cellEntry, hlc]
      exact ih (colStart + 1) (by omega)
        (fun c0 ha hb => hne c0 (by omega) (by push_cast at hb ⊢; omega))
    | some w =>
      rw [cellEntry, hlc, objLookup_cons, if_neg ?hne2]
      · exact ih (colStart + 1) (by omega)
          (fun c0 ha hb => hne c0 (by omega) (by push_cast at hb ⊢; omega))
      case hne2 =>
        intro hcontra
        exact hne colStart le_rfl (by push_cast; omega) hcontra.symm

lemma lookup_gridChunk_hit (t : Table) (r0 c0 : Int) (v : Value) (n : Nat)
    (hlook : objLookup t (canonRef r0 c0) = some v) (hr : 1 ≤ r0) (hc : 1 ≤ c0)
    (hcn : c0 < 1 + n) :
    ∀ (m : Nat) (rowStart : Int), 1 ≤ rowStart → rowStart ≤ r0 → r0 < rowStart + m →
    objLookup (gridChunk t rowStart m n) (canonRef r0 c0) = some v := by
  intro m
  induction m with
  | zero => intro rowStart _ _ h; omega
  | succ p ih =>
    intro rowStart h1 h2 h3
    rw [gridChunk, colSeq, List.flatMap_cons]
    have hgrid : (colSeq (rowStart + 1) p).flatMap (fun r => rowChunk t r 1 n) =
        gridChunk t (rowStart + 1) p n := rfl
    rw [objLookup_append]
    by_cases heq : rowStart = r0
    · subst heq
      rw [lookup_rowChunk_hit t rowStart c0 v hlook hr hc n 1 le_rfl hc hcn]
    · rw [lookup_rowChunk_miss t rowStart (canonRef r0 c0) (by omega) n 1 le_rfl ?hm]
      · rw [hgrid]
        exact ih (rowStart + 1) (by omega) (by omega) (by push_cast at h3 ⊢; omega)
      case hm =>
        intro cc hca hcb hcontra
        have := canonRef_inj hr hc (by omega) (by omega) hcontra
        omega

lemma exists_objLookup_of_mem_keys {t : Table} {k : JsStr} (h : k ∈ keysOf t) :
    ∃ v, objLookup t k = some v := by
  induction t with
  | nil => cases h
  | cons kv rest ih =>
    obtain ⟨k0, v0⟩ := kv
    rw [keysOf_cons] at h
    by_cases h0 : k0 = k
    · exact ⟨v0, by rw [objLookup_cons, if_pos h0]⟩
    · rcases List.mem_cons.1 h with h1 | h1
      · exact absurd h1.symm h0
      · obtain ⟨v, hv⟩ := ih h1
        exact ⟨v, by rw [objLookup_cons, if_neg h0]; exact hv⟩

lemma lookup_gridChunk_none (t : Table) (ref : JsStr) (m n : Nat) (rowStart : Int)
    (h : objLookup t ref = none) :
    objLookup (gridChunk t rowStart m n) ref = none := by
  apply objLookup_none_of_not_mem
  intro hmem
  obtain ⟨v, hv⟩ := keys_gridChunk_sub t n m rowStart ref hmem
  rw [h] at hv
  cases hv

lemma mem_intercalate_cases (sep : Char) :
    ∀ (ls : List JsStr) (c : Char), c ∈ List.intercalate [sep] ls →
      c = sep ∨ ∃ l ∈ ls, c ∈ l := by
  intro ls
  induction ls with
  | nil => intro c hc; cases hc
  | cons a rest ih =>
    intro c hc
    cases rest with
    | nil =>
      rw [intercalate_singleton'] at hc
      exact Or.inr ⟨a, List.mem_cons_self _ _, hc⟩
    | cons b rest2 =>
      rw [intercalate_cons'] at hc
      rcases List.mem_append.1 hc with h | h
      · exact Or.inr ⟨a, List.mem_cons_self _ _, h⟩
      · rcases List.mem_cons.1 h with h1 | h1
        · exact Or.inl h1
        · rcases ih c h1 with h2 | ⟨l, hl, hcl⟩
          · exact Or.inl h2
          · exact Or.inr ⟨l, List.mem_cons_of_mem _ hl, hcl⟩

lemma fieldFor_chars (t : Table) (hvals : ∀ kv ∈ t, goodValue kv.2) (r c : Int) :
    ∀ ch ∈ fieldFor t r c, ch ≠ ',' ∧ ch ≠ '"' ∧ ch ≠ '\n' ∧ ch ≠ '\r' := by
  intro ch hch
  cases hlook : objLookup t (canonRef r c) with
  | none =>
    have hf : fieldFor t r c = [] := by
      rw [fieldFor, hlook]
      rfl
    rw [hf] at hch
    cases hch
  | some v =>
    have hv : goodValue v := hvals _ (mem_of_objLookup_some hlook)
    have hf : fieldFor t r c = jsString v := by
      rw [fieldFor, hlook]
      exact goodValue_escape hv
    rw [hf] at hch
    exact goodValue_chars hv ch hch

lemma lineFor_chars (t : Table) (hvals : ∀ kv ∈ t, goodValue kv.2) (r : Int) (n : Nat) :
    ∀ ch ∈ List.intercalate [','] ((colSeq 1 n).map (fieldFor t r)),
      ch ≠ '\n' ∧ ch ≠ '\r' := by
  intro ch hch
  rcases mem_intercalate_cases ',' _ ch hch with h | ⟨l, hl, hcl⟩
  · subst h
    exact ⟨by decide, by decide⟩
  · obtain ⟨c, _, hlc⟩ := List.mem_map.1 hl
    subst hlc
    obtain ⟨_, _, h3, h4⟩ := fieldFor_chars t hvals r c ch hcl
    exact ⟨h3, h4⟩

lemma line_has_nonws (t : Table) (hvals : ∀ kv ∈ t, goodValue kv.2) (r : Int) (n : Nat)
    (hocc : ∃ c : Int, 1 ≤ c ∧ c < 1 + (n : Int) ∧ ∃ v, objLookup t (canonRef r c) = some v) :
    ∃ ch ∈ List.intercalate [','] ((colSeq 1 n).map (fieldFor t r)), isJsWs ch = false := by
  obtain ⟨c, hc1, hcn, v, hv⟩ := hocc
  have hgv : goodValue v := hvals _ (mem_of_objLookup_some hv)
  obtain ⟨ch, hch, hws⟩ := goodValue_nonws hgv
  have hf : fieldFor t r c = jsString v := by
    rw [fieldFor, hv]
    exact goodValue_escape hgv
  have hchf : ch ∈ fieldFor t r c := by rw [hf]; exact hch
  have hmemf : fieldFor t r c ∈ (colSeq 1 n).map (fieldFor t r) :=
    List.mem_map.2 ⟨c, (mem_colSeq n 1 c).2 ⟨hc1, hcn⟩, rfl⟩
  exact ⟨ch, mem_intercalate' ',' _ _ hmemf ch hchf, hws⟩

lemma bbox_spec (t : Table)
    (hcanon : ∀ k ∈ keysOf t, ∃ r c : Int, 1 ≤ r ∧ 1 ≤ c ∧ k = canonRef r c)
    (hne : keysOf t ≠ []) :
    ∃ b : A1.BBox, A1.getBoundingBox t = some b ∧ 1 ≤ b.minRow ∧ b.minRow ≤ b.maxRow ∧
      1 ≤ b.minCol ∧ b.minCol ≤ b.maxCol ∧
      (∀ r c : Int, 1 ≤ r → 1 ≤ c → canonRef r c ∈ keysOf t →
        b.minRow ≤ r ∧ r ≤ b.maxRow ∧ b.minCol ≤ c ∧ c ≤ b.maxCol) ∧
      (∃ r c : Int, 1 ≤ r ∧ 1 ≤ c ∧ r = b.maxRow ∧ canonRef r c ∈ keysOf t) := by
  set P := (keysOf t).filterMap (fun ref => (parseCellReference ref).toOption) with hP
  have hmemP : ∀ r c : Int, 1 ≤ r → 1 ≤ c → canonRef r c ∈ keysOf t →
      (⟨r, c⟩ : CellPosition) ∈ P := by
    intro r c hr hc hk
    rw [hP]
    exact List.mem_filterMap.2 ⟨canonRef r c, hk,
      by rw [parseCellReference_canonRef r c hr hc]; rfl⟩
  have hPmem : ∀ p ∈ P, (1 ≤ p.row ∧ 1 ≤ p.column) ∧ canonRef p.row p.column ∈ keysOf t := by
    intro p hp
    rw [hP] at hp
    obtain ⟨k, hk, hpk⟩ := List.mem_filterMap.1 hp
    obtain ⟨r, c, hr, hc, hkc⟩ := hcanon k hk
    subst hkc
    rw [parseCellReference_canonRef r c hr hc] at hpk
    have hpk' : some (⟨r, c⟩ : CellPosition) = some p := hpk
    have hp2 : p = ⟨r, c⟩ := (Option.some.inj hpk').symm
    subst hp2
    exact ⟨⟨hr, hc⟩, hk⟩
  have hPne : P ≠ [] := by
    obtain ⟨k, hk⟩ := List.exists_mem_of_ne_nil _ hne
    obtain ⟨r, c, hr, hc, hkc⟩ := hcanon k hk
    intro hcon
    have hmem := hmemP r c hr hc (hkc ▸ hk)
    rw [hcon] at hmem
    cases hmem
  have hrowsne : P.map (fun p => p.row) ≠ [] := by
    intro h
    exact hPne (List.map_eq_nil_iff.1 h)
  have hcolsne : P.map (fun p => p.column) ≠ [] := by
    intro h
    exact hPne (List.map_eq_nil_iff.1 h)
  have hbbeq : A1.getBoundingBox t = some ⟨A1.listMinI (P.map fun p => p.row),
      A1.listMaxI (P.map fun p => p.row), A1.listMinI (P.map fun p => p.column),
      A1.listMaxI (P.map fun p => p.column)⟩ := by
    rw [A1.getBoundingBox, if_neg hne, hP]
  refine ⟨_, hbbeq, ?_, ?_, ?_, ?_, ?_, ?_⟩
  · show 1 ≤ A1.listMinI (P.map fun p => p.row)
    obtain ⟨p, hp, hpr⟩ := List.mem_map.1 (listMinI_mem hrowsne)
    rw [← hpr]
    exact ((hPmem p hp).1).1
  · show A1.listMinI (P.map fun p => p.row) ≤ A1.listMaxI (P.map fun p => p.row)
    obtain ⟨p, hp⟩ := List.exists_mem_of_ne_nil P hPne
    exact le_trans (listMinI_le (List.mem_map.2 ⟨p, hp, rfl⟩))
      (le_listMaxI (List.mem_map.2 ⟨p, hp, rfl⟩))
  · show 1 ≤ A1.listMinI (P.map fun p => p.column)
    obtain ⟨p, hp, hpr⟩ := List.mem_map.1 (listMinI_mem hcolsne)
    rw [← hpr]
    exact ((hPmem p hp).1).2
  · show A1.listMinI (P.map fun p => p.column) ≤ A1.listMaxI (P.map fun p => p.column)
    obtain ⟨p, hp⟩ := List.exists_mem_of_ne_nil P hPne
    exact le_trans (listMinI_le (List.mem_map.2 ⟨p, hp, rfl⟩))
      (le_listMaxI (List.mem_map.2 ⟨p, hp, rfl⟩))
  · intro r c hr hc hk
    have hpmem := hmemP r c hr hc hk
    refine ⟨listMinI_le (List.mem_map.2 ⟨⟨r, c⟩, hpmem, rfl⟩),
      le_listMaxI (List.mem_map.2 ⟨⟨r, c⟩, hpmem, rfl⟩),
      listMinI_le (List.mem_map.2 ⟨⟨r, c⟩, hpmem, rfl⟩),
      le_listMaxI (List.mem_map.2 ⟨⟨r, c⟩, hpmem, rfl⟩)⟩
  · obtain ⟨p, hp, hpr⟩ := List.mem_map.1 (listMaxI_mem hrowsne)
    obtain ⟨⟨h1, h2⟩, hkey⟩ := hPmem p hp
    exact ⟨p.row, p.column, h1, h2, hpr, hkey⟩

lemma toCSVString_default (t : Table) (b : A1.BBox) (hbb : A1.getBoundingBox t = some b)
    (hmin : b.minRow = 1) :
    A1.toCSVString t A1.defaultCSVOptions =
      List.intercalate ['\n'] ((colSeq 1 b.maxRow.toNat).map (fun r =>
        List.intercalate [','] ((colSeq 1 b.maxCol.toNat).map (fieldFor t r)))) := by
  have h1 : A1.toCSVString t A1.defaultCSVOptions =
      List.intercalate ['\n'] ((A1.intRange b.minRow b.maxRow).map
        (A1.csvLine t ',' 1 b.maxCol)) := by
    rw [A1.toCSVString.eq_def, hbb]
    rfl
  rw [h1, hmin, intRange_eq_colSeq]
  have h2 : b.maxRow - 1 + 1 = b.maxRow := by ring
  rw [h2]
  apply congrArg
  apply List.map_congr_left
  intro r _
  rw [csvLine_eq_fieldFor, intRange_eq_colSeq]
  have h3 : b.maxCol - 1 + 1 = b.maxCol := by ring
  rw [h3]

lemma loadFromCSVString_eq (t : Table) (s : JsStr) (o : A1.CSVImportOptions)
    (h : ¬ parseCsvString s o.separator = []) :
    A1.loadFromCSVString t s o =
      A1.loadRows [] o.startRow (columnLetterToNumber o.startColumn)
        (if o.hasHeaders then (parseCsvString s o.separator).drop 1
         else parseCsvString s o.separator) := by
  show (if parseCsvString s o.separator = [] then (t, none)
    else A1.loadRows (A1.clear t) o.startRow (columnLetterToNumber o.startColumn)
      (if o.hasHeaders then (parseCsvString s o.separator).drop 1
       else parseCsvString s o.separator)) = _
  rw [if_neg h]
  rfl

lemma parseCsvString_grid (t : Table) (hvals : ∀ kv ∈ t, goodValue kv.2)
    (m n : Nat) (hm : 1 ≤ m)
    (hocc : ∀ r : Int, 1 ≤ r → r < 1 + (m : Int) →
      ∃ c : Int, 1 ≤ c ∧ c < 1 + (n : Int) ∧ ∃ v, objLookup t (canonRef r c) = some v) :
    parseCsvString (List.intercalate ['\n'] ((colSeq 1 m).map (fun r =>
      List.intercalate [','] ((colSeq 1 n).map (fieldFor t r))))) ',' =
      (colSeq 1 m).map (fun r => (colSeq 1 n).map (fieldFor t r)) := by
  have hlinesne : (colSeq 1 m).map (fun r =>
      List.intercalate [','] ((colSeq 1 n).map (fieldFor t r))) ≠ [] := by
    intro h
    exact colSeq_ne_nil (by omega) 1 (List.map_eq_nil_iff.1 h)
  have hlchars : ∀ l ∈ (colSeq 1 m).map (fun r =>
      List.intercalate [','] ((colSeq 1 n).map (fieldFor t r))),
      ∀ c ∈ l, c ≠ '\n' ∧ c ≠ '\r' := by
    intro l hl
    obtain ⟨r, _, hrl⟩ := List.mem_map.1 hl
    subst hrl
    exact lineFor_chars t hvals r n
  have hlnonblank : ∀ l ∈ (colSeq 1 m).map (fun r =>
      List.intercalate [','] ((colSeq 1 n).map (fieldFor t r))), trimJs l ≠ [] := by
    intro l hl
    obtain ⟨r, hrmem, hrl⟩ := List.mem_map.1 hl
    subst hrl
    obtain ⟨h1, h2⟩ := (mem_colSeq m 1 r).1 hrmem
    obtain ⟨ch, hch, hws⟩ := line_has_nonws t hvals r n (hocc r h1 h2)
    intro hnil
    have hcontra := (trimJs_eq_nil_iff _).1 hnil ch hch
    rw [hws] at hcontra
    cases hcontra
  have htrim : trimJs (List.intercalate ['\n'] ((colSeq 1 m).map (fun r =>
      List.intercalate [','] ((colSeq 1 n).map (fieldFor t r))))) ≠ [] := by
    have h1m : (1 : Int) ∈ colSeq 1 m := (mem_colSeq m 1 1).2 ⟨le_rfl, by omega⟩
    obtain ⟨ch, hch, hws⟩ := line_has_nonws t hvals 1 n (hocc 1 le_rfl (by omega))
    have hline : List.intercalate [','] ((colSeq 1 n).map (fieldFor t 1)) ∈
        (colSeq 1 m).map (fun r => List.intercalate [','] ((colSeq 1 n).map (fieldFor t r))) :=
      List.mem_map.2 ⟨1, h1m, rfl⟩
    have hchall := mem_intercalate' '\n' _ _ hline ch hch
    intro hnil
    have hcontra := (trimJs_eq_nil_iff _).1 hnil ch hchall
    rw [hws] at hcontra
    cases hcontra
  rw [parseCsvString, if_neg htrim]
  rw [splitCRLF_intercalate _ hlinesne hlchars]
  rw [List.filter_eq_self.2 ?pos]
  case pos =>
    intro l hl
    have h := hlnonblank l hl
    cases htl : trimJs l with
    | nil => exact absurd htl h
    | cons a as => rfl
  rw [List.map_map]
  apply List.map_congr_left
  intro r _
  show parseCsvLine (List.intercalate [','] ((colSeq 1 n).map (fieldFor t r))) ',' = _
  refine parseCsvLine_intercalate ',' (by decide) _ ?_ ?_
  · intro h
    obtain ⟨c, hc1, hcn, _⟩ := hocc 1 le_rfl (by omega)
    have hcmem : c ∈ colSeq 1 n := (mem_colSeq n 1 c).2 ⟨hc1, hcn⟩
    rw [List.map_eq_nil_iff.1 h] at hcmem
    cases hcmem
  · intro f hf c hc
    obtain ⟨cc, _, hccf⟩ := List.mem_map.1 hf
    subst hccf
    obtain ⟨ha, hb, _, _⟩ := fieldFor_chars t hvals r cc c hc
    exact ⟨ha, hb⟩

/-- **C2** (amended).  The CSV round-trip `loadFromCSVString ∘ toCSVString`
(default options on both sides) returns no error and reproduces the table's
cell map exactly — same occupied references, same values — provided the
table's keys are canonical encoder outputs, every row between `1` and the
bounding-box `maxRow` holds at least one cell, and every stored value is a
terminating-decimal number, a boolean, or a plain string (nonempty, free of
comma/quote/newline/return, not matching the numeric grammar, not
case-insensitively `true`/`false`, and containing a non-whitespace
character).  Outside this class the round-trip can relocate cells: blank
rows above or between occupied rows are dropped on re-import, see the
counterexample. -/
theorem csv_roundtrip (t : Table)
    (hcanon : ∀ k ∈ keysOf t, ∃ r c : Int, 1 ≤ r ∧ 1 ≤ c ∧ k = canonRef r c)
    (hvals : ∀ kv ∈ t, goodValue kv.2)
    (hrows : ∀ r : Int, 1 ≤ r → r ≤ A1.maxRowOf t →
      ∃ c : Int, 1 ≤ c ∧ canonRef r c ∈ keysOf t) :
    (A1.loadFromCSVString t (A1.toCSVString t A1.defaultCSVOptions)
        A1.defaultImportOptions).2 = none ∧
    ∀ ref : JsStr,
      objLookup (A1.loadFromCSVString t (A1.toCSVString t A1.defaultCSVOptions)
          A1.defaultImportOptions).1 ref = objLookup t ref := by
  by_cases hne : keysOf t = []
  · rw [keysOf] at hne
    have ht : t = [] := List.map_eq_nil_iff.1 hne
    subst ht
    exact ⟨rfl, fun ref => rfl⟩
  · obtain ⟨b, hbb, hminR, hminmaxR, hminC, hminmaxC, hbnd, -⟩ := bbox_spec t hcanon hne
    have hmaxRowOf : A1.maxRowOf t = b.maxRow := by
      rw [A1.maxRowOf, hbb]
      rfl
    have hR1 : 1 ≤ b.maxRow := le_trans hminR hminmaxR
    have hminR1 : b.minRow = 1 := by
      obtain ⟨c, hc1, hcm⟩ := hrows 1 le_rfl (by rw [hmaxRowOf]; exact hR1)
      have hle := (hbnd 1 c le_rfl hc1 hcm).1
      omega
    have hC1 : 1 ≤ b.maxCol := le_trans hminC hminmaxC
    have hmI : (b.maxRow.toNat : Int) = b.maxRow := by omega
    have hnI : (b.maxCol.toNat : Int) = b.maxCol := by omega
    have hm1 : 1 ≤ b.maxRow.toNat := by omega
    have hcsv : A1.toCSVString t A1.defaultCSVOptions =
        List.intercalate ['\n'] ((colSeq 1 b.maxRow.toNat).map (fun r =>
          List.intercalate [','] ((colSeq 1 b.maxCol.toNat).map (fieldFor t r)))) :=
      toCSVString_default t b hbb hminR1
    have hocc : ∀ r : Int, 1 ≤ r → r < 1 + (b.maxRow.toNat : Int) →
        ∃ c : Int, 1 ≤ c ∧ c < 1 + (b.maxCol.toNat : Int) ∧
          ∃ v, objLookup t (canonRef r c) = some v := by
      intro r h1 h2
      obtain ⟨c, hc1, hcm⟩ := hrows r h1 (by rw [hmaxRowOf]; omega)
      obtain ⟨-, -, -, hcc⟩ := hbnd r c h1 hc1 hcm
      exact ⟨c, hc1, by omega, exists_objLookup_of_mem_keys hcm⟩
    have hparse : parseCsvString (A1.toCSVString t A1.defaultCSVOptions) ',' =
        (colSeq 1 b.maxRow.toNat).map (fun r =>
          (colSeq 1 b.maxCol.toNat).map (fieldFor t r)) := by
      rw [hcsv]
      exact parseCsvString_grid t hvals b.maxRow.toNat b.maxCol.toNat hm1 hocc
    have hgridne : (colSeq 1 b.maxRow.toNat).map (fun r =>
        (colSeq 1 b.maxCol.toNat).map (fieldFor t r)) ≠ [] := by
      intro h
      exact colSeq_ne_nil (by omega) 1 (List.map_eq_nil_iff.1 h)
    have hload : A1.loadFromCSVString t (A1.toCSVString t A1.defaultCSVOptions)
        A1.defaultImportOptions = (gridChunk t 1 b.maxRow.toNat b.maxCol.toNat, none) := by
      rw [loadFromCSVString_eq t _ A1.defaultImportOptions
        (by show ¬ parseCsvString _ ',' = []; rw [hparse]; exact hgridne)]
      show A1.loadRows [] 1 1
        (parseCsvString (A1.toCSVString t A1.defaultCSVOptions) ',') = _
      rw [hparse]
      rw [loadRows_eq _ [] 1 le_rfl (by intro k hk; cases hk)]
      rw [List.nil_append, rowsEntries_map_fieldFor t hvals b.maxCol.toNat b.maxRow.toNat 1]
    constructor
    · rw [hload]
    · intro ref
      have h1 : (A1.loadFromCSVString t (A1.toCSVString t A1.defaultCSVOptions)
          A1.defaultImportOptions).1 = gridChunk t 1 b.maxRow.toNat b.maxCol.toNat := by
        rw [hload]
      rw [h1]
      cases href : objLookup t ref with
      | none => exact lookup_gridChunk_none t ref b.maxRow.toNat b.maxCol.toNat 1 href
      | some v =>
        have hmem := objLookup_mem_keys href
        obtain ⟨r, c, hr, hc, hkc⟩ := hcanon ref hmem
        subst hkc
        obtain ⟨-, hrmax, -, hcmax⟩ := hbnd r c hr hc hmem
        exact lookup_gridChunk_hit t r c v b.maxCol.toNat href hr hc (by omega)
          b.maxRow.toNat 1 le_rfl hr (by omega)

/-- **C2** witness: the one-cell table `{A1: true}` (a boolean value in
canonical position) survives the default-options CSV round-trip without an
error and with an unchanged cell map. -/
theorem csv_roundtrip_witness :
    (A1.loadFromCSVString [(("A1".toList), Value.bool true)]
        (A1.toCSVString [(("A1".toList), Value.bool true)] A1.defaultCSVOptions)
        A1.defaultImportOptions).2 = none ∧
    ∀ ref : JsStr,
      objLookup (A1.loadFromCSVString [(("A1".toList), Value.bool true)]
          (A1.toCSVString [(("A1".toList), Value.bool true)] A1.defaultCSVOptions)
          A1.defaultImportOptions).1 ref =
        objLookup [(("A1".toList), Value.bool true)] ref :=
  csv_roundtrip [(("A1".toList), Value.bool true)]
    (by
      intro k hk
      have h := List.mem_singleton.1 hk
      exact ⟨1, 1, le_rfl, le_rfl, by rw [h]; rfl⟩)
    (by
      intro kv hkv
      have h := List.mem_singleton.1 hkv
      rw [h]
      exact trivial)
    (by
      intro r h1 h2
      have hm : A1.maxRowOf [(("A1".toList), Value.bool true)] = 1 := by decide
      rw [hm] at h2
      have hr1 : r = 1 := le_antisymm h2 h1
      exact ⟨1, le_rfl, by rw [hr1]; exact List.mem_singleton.2 rfl⟩)

/-- **C2** counterexample: the table `{A2: true}` stores no null or
undefined value, yet the default-options CSV round-trip moves its only cell:
the export of row bounds 2..2 is the single line `true`, which re-imports at
row 1, so the occupied-reference set changes from `{A2}` to `{A1}`. -/
theorem csv_roundtrip_counterexample :
    (∀ kv ∈ ([(("A2".toList), Value.bool true)] : Table),
        kv.2 ≠ Value.null ∧ kv.2 ≠ Value.undef) ∧
    A1.getCellReferences (A1.loadFromCSVString [(("A2".toList), Value.bool true)]
        (A1.toCSVString [(("A2".toList), Value.bool true)] A1.defaultCSVOptions)
        A1.defaultImportOptions).1 = ["A1".toList] ∧
    A1.getCellReferences [(("A2".toList), Value.bool true)] = ["A2".toList] := by
  refine ⟨?_, rfl, rfl⟩
  intro kv hkv
  have h := List.mem_singleton.1 hkv
  rw [h]
  exact ⟨fun hc => Value.noConfusion hc, fun hc => Value.noConfusion hc⟩

end A1JS
